import Mathlib

/-!
Verification development for the staged-cache store (`BatchDatabase`, package
tomox) and the block validator (`core/block_validator.go`) of this repository.

The Go code is shallowly embedded:
* byte strings are `List (Fin 256)`; hex cache keys are `List (Fin 16)`;
* the persistent LevelDB store and the overlay registry (a Go map) are
  modelled as functions to `Option`, with pointwise update/erase mirroring
  in-place mutation of Go maps;
* an LRU cache (hashicorp golang-lru) is a capacity plus a most-recent-first
  association list; `Get` moves the hit entry to the front, `Add`
  inserts/updates at the front and evicts the oldest entry beyond capacity;
* stateful methods become explicit state passing: each method returns its
  result together with the updated `BatchDatabase`;
* machine integers are `Nat` with explicit `% 2 ^ 64` where Go `uint64`
  arithmetic can wrap (`CalcGasLimit`);
* fallible methods return `Except DbErr`; Go `error` outcomes become
  constructors of `DbErr`.

The `sync.RWMutex` field only serializes access and has no effect on the
sequential semantics modelled here, so it is omitted, as is the `Debug` flag.
-/

/-- A byte. -/
abbrev Byte := Fin 256

/-- An opaque byte-string key, as handed to the `BatchDatabase` methods. -/
abbrev Key := List Byte

/-- A hex nibble, the unit of `hex.EncodeToString`. -/
abbrev Nibble := Fin 16

/-- A hex-encoded cache key (`getCacheKey` output). -/
abbrev CacheKey := List Nibble

/-- A block hash (`common.Hash`).  The zero value `common.Hash{}` is `0`. -/
abbrev Hash := Nat

/-- `hex.EncodeToString`: each byte becomes its two hex nibbles. -/
def hexEncode (k : Key) : CacheKey :=
  k.flatMap fun b =>
    [⟨b.val / 16, by have := b.isLt; omega⟩, ⟨b.val % 16, Nat.mod_lt _ (by decide)⟩]

/-- `hex.DecodeString`: pairs of nibbles back to bytes; odd length fails. -/
def hexDecode : CacheKey → Option Key
  | [] => some []
  | h :: l :: rest =>
    (hexDecode rest).map fun t =>
      ⟨16 * h.val + l.val, by have := h.isLt; have := l.isLt; omega⟩ :: t
  | [_] => none

/-- The closed set of record variants stored through the codec
(`*Item`, `*OrderItem`, `*OrderListItem`, `*OrderTreeItem`, `*OrderBookItem`). -/
inductive Variant where
  | item
  | orderItem
  | orderListItem
  | orderTreeItem
  | orderBookItem
deriving DecidableEq, Repr

/-- A decoded record: its variant tag plus opaque payload bytes. -/
structure Value where
  variant : Variant
  payload : List Nat
deriving DecidableEq, Repr

/-- Numeric tag of a variant, used by the modelled codec. -/
def Variant.tag : Variant → Nat
  | .item => 0
  | .orderItem => 1
  | .orderListItem => 2
  | .orderTreeItem => 3
  | .orderBookItem => 4

/-- Modelled from the spec: `EncodeBytesItem` (the rlp-based codec of the
repository is not under src/).  Deterministic and canonical: a variant tag
followed by the payload bytes. -/
def EncodeBytesItem (v : Value) : List Nat :=
  v.variant.tag :: v.payload

/-- Modelled from the spec: `DecodeBytesItem` is variant-directed (the caller
supplies the expected variant) and fails on a tag mismatch. -/
def DecodeBytesItem (b : List Nat) (var : Variant) : Option Value :=
  match b with
  | [] => none
  | t :: rest => if t = var.tag then some ⟨var, rest⟩ else none

/-- A value stored in a cache slot (`interface{}` in Go): `null` is the nil
interface used as the Tombstone marker; `ptr` is a pointer to one of the five
record variants (`reflect.Kind == Ptr`); `plain` is a non-pointer record
value, which overlay inheritance copies directly. -/
inductive GoVal where
  | null
  | ptr (v : Value)
  | plain (v : Value)
deriving DecidableEq, Repr

/-- Whether the stored interface value is nil. -/
def GoVal.isNull : GoVal → Bool
  | .null => true
  | _ => false

/-- The value as seen by a caller of `Get`: the nil interface reads back as
an absent value. -/
def GoVal.toOpt : GoVal → Option GoVal
  | .null => none
  | v => some v

/-- `EncodeBytesItem` applied to a stored interface value; encoding the nil
interface fails. -/
def encodeStoredVal : GoVal → Option (List Nat)
  | .null => none
  | .ptr v => some (EncodeBytesItem v)
  | .plain v => some (EncodeBytesItem v)

/-- A bounded LRU cache (hashicorp golang-lru): capacity plus entries in
most-recent-first order. -/
structure LruCache where
  cap : Nat
  entries : List (CacheKey × GoVal)
deriving DecidableEq, Repr

/-- First-match association-list lookup. -/
def lookupList : List (CacheKey × GoVal) → CacheKey → Option GoVal
  | [], _ => none
  | e :: rest, k => if e.1 = k then some e.2 else lookupList rest k

namespace LruCache

/-- Pure lookup (no recency update); also models `Contains`/`Peek`. -/
def lookup (c : LruCache) (k : CacheKey) : Option GoVal :=
  lookupList c.entries k

/-- `Len()`. -/
def len (c : LruCache) : Nat := c.entries.length

/-- `Contains(k)`: membership test without recency update. -/
def contains (c : LruCache) (k : CacheKey) : Bool := (c.lookup k).isSome

/-- `Get(k)`: returns the value and moves the hit entry to the front. -/
def get (c : LruCache) (k : CacheKey) : Option GoVal × LruCache :=
  match c.lookup k with
  | none => (none, c)
  | some v => (some v, ⟨c.cap, (k, v) :: c.entries.filter fun e => decide (e.1 ≠ k)⟩)

/-- `Add(k, v)`: insert or update at the front; beyond capacity the oldest
entry is evicted. -/
def add (c : LruCache) (k : CacheKey) (v : GoVal) : LruCache :=
  ⟨c.cap, ((k, v) :: c.entries.filter fun e => decide (e.1 ≠ k)).take c.cap⟩

/-- `Remove(k)`. -/
def remove (c : LruCache) (k : CacheKey) : LruCache :=
  ⟨c.cap, c.entries.filter fun e => decide (e.1 ≠ k)⟩

/-- `Purge()`. -/
def purge (c : LruCache) : LruCache := ⟨c.cap, []⟩

/-- `Keys()`: keys in oldest-first order. -/
def keys (c : LruCache) : List CacheKey := (c.entries.map Prod.fst).reverse

end LruCache

/-- The persistent LevelDB store, as a map from keys to raw encoded bytes. -/
def Store := Key → Option (List Nat)

/-- `db.Get`. -/
def Store.get (s : Store) (k : Key) : Option (List Nat) := s k

/-- `db.Has`. -/
def Store.hasKey (s : Store) (k : Key) : Bool := (s k).isSome

/-- `db.Put`. -/
def Store.put (s : Store) (k : Key) (v : List Nat) : Store :=
  fun k' => if k' = k then some v else s k'

/-- `db.Delete`. -/
def Store.del (s : Store) (k : Key) : Store :=
  fun k' => if k' = k then none else s k'

/-- The overlay registry `dryRunCaches`, a Go map from block hash to LRU. -/
def Registry := Hash → Option LruCache

/-- Go map assignment `m[h] = c` (also models in-place mutation of `m[h]`). -/
def Registry.update (r : Registry) (h : Hash) (c : LruCache) : Registry :=
  fun h' => if h' = h then some c else r h'

/-- Go map `delete(m, h)`. -/
def Registry.erase (r : Registry) (h : Hash) : Registry :=
  fun h' => if h' = h then none else r h'

/-- Error outcomes of the `BatchDatabase` methods. -/
inductive DbErr where
  /-- LevelDB `ErrNotFound` surfaced by `db.db.Get`. -/
  | notFound
  /-- `DecodeBytesItem` failure on a read. -/
  | decodeFailed
  /-- `EncodeBytesItem` failure on a direct `Put`. -/
  | encodeFailed
  /-- "dryruncache not found": staged write against an unknown overlay. -/
  | dryrunCacheNotFound
  /-- "can't initialize dryruncache": `lru.New` failed. -/
  | lruAllocFailed
  /-- "can't found parentCache": missing or empty parent overlay. -/
  | parentCacheNotFound
  /-- "can't inherit from the nearest dryruncache": decode of an inherited
  entry failed. -/
  | inheritFailed
  /-- `hex.DecodeString` failure in `SaveDryRunResult`. -/
  | hexDecodeFailed
  /-- "can't get item from dryrun cache" in `SaveDryRunResult`. -/
  | dryrunGetFailed
deriving DecidableEq, Repr

deriving instance DecidableEq for Except

/-- `defaultCacheLimit`. -/
def defaultCacheLimit : Nat := 1024000

/-- `dryrunCacheLimit`. -/
def dryrunCacheLimit : Nat := 200

/-- Modelled from the spec: `M1DryrunCacheHash`, the distinguished miner
overlay hash excluded from FIFO eviction (defined in a repository file not
under src/); any fixed nonzero hash. -/
def M1DryrunCacheHash : Hash := 1

/-- The `BatchDatabase` state. -/
structure BatchDatabase where
  /-- The persistent store (`db *ethdb.LDBDatabase`). -/
  db : Store
  /-- The preallocated empty-key sentinel (`EmptyKey()`). -/
  emptyKey : Key
  /-- The hot read-through cache (`cacheItems`). -/
  cacheItems : LruCache
  /-- The per-block overlay registry (`dryRunCaches`). -/
  dryRunCaches : Registry
  /-- FIFO of overlay hashes governing eviction (`recentCaches`). -/
  recentCaches : List Hash
  /-- Capacity for newly allocated caches (`cacheLimit`); the constructor
  guarantees it is positive. -/
  cacheLimit : Nat

namespace BatchDatabase

/-- `IsEmptyKey`: nil, zero-length, or byte-equal to the sentinel. -/
def IsEmptyKey (db : BatchDatabase) (key : Key) : Bool :=
  decide (key = []) || decide (key = db.emptyKey)

/-- `getCacheKey`. -/
def getCacheKey (key : Key) : CacheKey := hexEncode key

/-- `Has`.  In staged (dryrun) mode a hit in overlay `blockHash` answers
directly (nil marks absence); otherwise, and in direct mode on a hot-cache
miss, the persistent store is consulted.  The hot cache is skipped in staged
mode. -/
def Has (db : BatchDatabase) (key : Key) (dryrun : Bool) (blockHash : Hash) :
    Bool × BatchDatabase :=
  if db.IsEmptyKey key then (false, db)
  else
    let cacheKey := getCacheKey key
    if dryrun then
      match db.dryRunCaches blockHash with
      | some dryrunCache =>
        if 0 < dryrunCache.len then
          match dryrunCache.get cacheKey with
          | (some val, c') =>
            (!val.isNull, { db with dryRunCaches := db.dryRunCaches.update blockHash c' })
          | (none, c') =>
            (db.db.hasKey key, { db with dryRunCaches := db.dryRunCaches.update blockHash c' })
        else (db.db.hasKey key, db)
      | none => (db.db.hasKey key, db)
    else if db.cacheItems.contains cacheKey then (true, db)
    else (db.db.hasKey key, db)

/-- The tail of `Get` after the dryrun-cache block: Go evaluates
`db.cacheItems.Get(cacheKey)` unconditionally (bumping recency), but uses the
cached value only when `!dryrun`; otherwise it reads and decodes from the
persistent store, populating the hot cache only when `!dryrun`. -/
def getFallback (db : BatchDatabase) (key : Key) (var : Variant) (dryrun : Bool)
    (cacheKey : CacheKey) : Except DbErr (Option GoVal) × BatchDatabase :=
  let hit := db.cacheItems.get cacheKey
  let db := { db with cacheItems := hit.2 }
  match hit.1 with
  | some cached =>
    if !dryrun then (.ok cached.toOpt, db)
    else
      match db.db.get key with
      | none => (.error .notFound, db)
      | some b =>
        match DecodeBytesItem b var with
        | none => (.error .decodeFailed, db)
        | some v => (.ok (some (.ptr v)), db)
  | none =>
    match db.db.get key with
    | none => (.error .notFound, db)
    | some b =>
      match DecodeBytesItem b var with
      | none => (.error .decodeFailed, db)
      | some v =>
        if !dryrun then
          (.ok (some (.ptr v)), { db with cacheItems := db.cacheItems.add cacheKey (.ptr v) })
        else (.ok (some (.ptr v)), db)

/-- `Get`.  `var` is the expected variant of the caller-supplied decode
target `val`. -/
def Get (db : BatchDatabase) (key : Key) (var : Variant) (dryrun : Bool)
    (blockHash : Hash) : Except DbErr (Option GoVal) × BatchDatabase :=
  if db.IsEmptyKey key then (.ok none, db)
  else
    let cacheKey := getCacheKey key
    if dryrun then
      match db.dryRunCaches blockHash with
      | some dryrunCache =>
        if 0 < dryrunCache.len then
          match dryrunCache.get cacheKey with
          | (some value, c') =>
            (.ok value.toOpt, { db with dryRunCaches := db.dryRunCaches.update blockHash c' })
          | (none, c') =>
            getFallback { db with dryRunCaches := db.dryRunCaches.update blockHash c' }
              key var dryrun cacheKey
        else getFallback db key var dryrun cacheKey
      | none => getFallback db key var dryrun cacheKey
    else getFallback db key var dryrun cacheKey

/-- `Put`.  Staged mode inserts into the overlay (failing when the overlay is
unknown); direct mode populates the hot cache and writes through to the
persistent store. -/
def Put (db : BatchDatabase) (key : Key) (val : GoVal) (dryrun : Bool)
    (blockHash : Hash) : Except DbErr Unit × BatchDatabase :=
  let cacheKey := getCacheKey key
  if dryrun then
    match db.dryRunCaches blockHash with
    | none => (.error .dryrunCacheNotFound, db)
    | some dryrunCache =>
      (.ok (), { db with dryRunCaches := db.dryRunCaches.update blockHash (dryrunCache.add cacheKey val) })
  else
    let db := { db with cacheItems := db.cacheItems.add cacheKey val }
    match encodeStoredVal val with
    | none => (.error .encodeFailed, db)
    | some value => (.ok (), { db with db := db.db.put key value })

/-- `Delete`.  Staged mode marks the key with a nil Tombstone in the overlay
(failing when the overlay is unknown); direct mode removes from the hot cache
and the persistent store. -/
def Delete (db : BatchDatabase) (key : Key) (dryrun : Bool) (blockHash : Hash) :
    Except DbErr Unit × BatchDatabase :=
  let cacheKey := getCacheKey key
  if dryrun then
    match db.dryRunCaches blockHash with
    | none => (.error .dryrunCacheNotFound, db)
    | some dryrunCache =>
      (.ok (), { db with dryRunCaches := db.dryRunCaches.update blockHash (dryrunCache.add cacheKey .null) })
  else
    let db := { db with cacheItems := db.cacheItems.remove cacheKey }
    (.ok (), { db with db := db.db.del key })

/-- `HasDryrunCache`: the overlay must exist and be non-empty. -/
def HasDryrunCache (db : BatchDatabase) (blockhash : Hash) : Bool :=
  match db.dryRunCaches blockhash with
  | some cache => 0 < cache.len
  | none => false

/-- `DropDryrunCache`: purge and remove the overlay (purging an object that
is then dropped from the map has no further effect in the pure model). -/
def DropDryrunCache (db : BatchDatabase) (blockhash : Hash) : BatchDatabase :=
  { db with dryRunCaches := db.dryRunCaches.erase blockhash }

end BatchDatabase

/-- The per-key body of the inheritance loop in `InitDryRunMode`, threading
the freshly allocated overlay (`target`) and the parent overlay (`parent`,
whose recency order each `Get` mutates in place).  A nil or non-pointer value
is copied directly; a pointer record (one of the five variants of the Go
type switch) is cloned by an encode-then-decode round-trip, a decode failure
aborting with "can't inherit from the nearest dryruncache".  A key whose
`Get` misses is skipped (`if ok`). -/
def inheritLoop : List CacheKey → LruCache → LruCache →
    Option DbErr × LruCache × LruCache
  | [], target, parent => (none, target, parent)
  | cacheKey :: rest, target, parent =>
    match parent.get cacheKey with
    | (none, parent') => inheritLoop rest target parent'
    | (some val, parent') =>
      match val with
      | .ptr v =>
        match DecodeBytesItem (EncodeBytesItem v) v.variant with
        | none => (some .inheritFailed, target, parent')
        | some value => inheritLoop rest (target.add cacheKey (.ptr value)) parent'
      | _ => inheritLoop rest (target.add cacheKey val) parent'

namespace BatchDatabase

/-- `InitDryRunMode`.  When `recentCaches` has reached `dryrunCacheLimit`,
the oldest overlay is dropped first and the FIFO advances.  Any existing
overlay at the block hash is dropped, a fresh LRU is allocated (`lru.New`
fails exactly when the capacity is not positive), the parent overlay — which
must exist and be non-empty when a parent hash is given — is deep-cloned
into it, and the overlay is registered; a non-miner hash is appended to the
FIFO. -/
def InitDryRunMode (db0 : BatchDatabase) (blockHashNoValidator parentCacheHash : Hash) :
    Except DbErr Unit × BatchDatabase :=
  let db1 :=
    if dryrunCacheLimit ≤ db0.recentCaches.length then
      let d := db0.DropDryrunCache (db0.recentCaches.headD 0)
      { d with recentCaches := d.recentCaches.drop 1 }
    else db0
  let db := db1.DropDryrunCache blockHashNoValidator
  if db.cacheLimit = 0 then (.error .lruAllocFailed, db)
  else
    let dryrunCache : LruCache := ⟨db.cacheLimit, []⟩
    if parentCacheHash ≠ 0 then
      match db.dryRunCaches parentCacheHash with
      | some parentCache =>
        if 0 < parentCache.len then
          match inheritLoop parentCache.keys dryrunCache parentCache with
          | (some e, _, parent') =>
            (.error e, { db with dryRunCaches := db.dryRunCaches.update parentCacheHash parent' })
          | (none, target, parent') =>
            let db := { db with dryRunCaches :=
              (db.dryRunCaches.update parentCacheHash parent').update blockHashNoValidator target }
            (.ok (),
              if blockHashNoValidator ≠ M1DryrunCacheHash then
                { db with recentCaches := db.recentCaches ++ [blockHashNoValidator] }
              else db)
        else (.error .parentCacheNotFound, db)
      | none => (.error .parentCacheNotFound, db)
    else
      let db := { db with dryRunCaches := db.dryRunCaches.update blockHashNoValidator dryrunCache }
      (.ok (),
        if blockHashNoValidator ≠ M1DryrunCacheHash then
          { db with recentCaches := db.recentCaches ++ [blockHashNoValidator] }
        else db)

end BatchDatabase

/-- An observable effect on the persistent store or the hot cache during
`SaveDryRunResult`, in order of occurrence. -/
inductive DbEvent where
  /-- A direct (non-batched) `db.db.Delete`. -/
  | storeDelete (key : Key)
  /-- A `batch.Put` staged into the atomic batch. -/
  | batchPut (key : Key) (value : List Nat)
  /-- The atomic `batch.Write()`. -/
  | batchWrite
  /-- `db.cacheItems.Purge()`. -/
  | cachePurge
deriving DecidableEq, Repr

/-- The per-key body of the promotion loop in `SaveDryRunResult`: cache keys
are hex-decoded back to byte keys; a nil value is deleted from the persistent
store directly (not batched); any other value is encoded and staged as a
batch put.  The overlay (`cache`) is threaded because each `Get` mutates its
recency order; the running direct deletes are applied to `store`
immediately.  The accumulated events record the order of effects. -/
def saveLoop : List CacheKey → Store → LruCache → List (Key × List Nat) → List DbEvent →
    Option DbErr × Store × LruCache × List (Key × List Nat) × List DbEvent
  | [], store, cache, batch, evs => (none, store, cache, batch, evs)
  | cacheKey :: rest, store, cache, batch, evs =>
    match hexDecode cacheKey with
    | none => (some .hexDecodeFailed, store, cache, batch, evs)
    | some key =>
      match cache.get cacheKey with
      | (none, cache') => (some .dryrunGetFailed, store, cache', batch, evs)
      | (some val, cache') =>
        match val with
        | .null => saveLoop rest (store.del key) cache' batch (evs ++ [.storeDelete key])
        | .ptr v =>
          saveLoop rest store cache' (batch ++ [(key, EncodeBytesItem v)])
            (evs ++ [.batchPut key (EncodeBytesItem v)])
        | .plain v =>
          saveLoop rest store cache' (batch ++ [(key, EncodeBytesItem v)])
            (evs ++ [.batchPut key (EncodeBytesItem v)])

namespace BatchDatabase

/-- `SaveDryRunResult`.  A missing or empty overlay is a silent no-op.
Otherwise every overlay entry is promoted: tombstones as direct deletes
during the loop, live values as batch puts; then the hot cache is purged and
then the batch is written atomically.  The overlay stays registered.  Batch
writes are modelled as always succeeding; the relative order of the purge
and the write is recorded in the event trace. -/
def SaveDryRunResult (db : BatchDatabase) (blockHash : Hash) :
    Except DbErr Unit × BatchDatabase × List DbEvent :=
  match db.dryRunCaches blockHash with
  | none => (.ok (), db, [])
  | some dryrunCache =>
    if dryrunCache.len = 0 then (.ok (), db, [])
    else
      match saveLoop dryrunCache.keys db.db dryrunCache [] [] with
      | (some e, store', cache', _, evs) =>
        (.error e,
          { db with db := store', dryRunCaches := db.dryRunCaches.update blockHash cache' }, evs)
      | (none, store', cache', batch, evs) =>
        (.ok (),
          { db with
            db := batch.foldl (fun s kv => s.put kv.1 kv.2) store'
            cacheItems := db.cacheItems.purge
            dryRunCaches := db.dryRunCaches.update blockHash cache' },
          evs ++ [.cachePurge, .batchWrite])

end BatchDatabase

/-- `2 ^ 64`, the modulus of Go `uint64` arithmetic. -/
def u64Mod : Nat := 2 ^ 64

/-- Go `uint64` addition. -/
def u64add (a b : Nat) : Nat := (a + b) % u64Mod

/-- Go `uint64` subtraction (two's complement wraparound); the operands are
kept below `u64Mod` by construction. -/
def u64sub (a b : Nat) : Nat := (a + (u64Mod - b)) % u64Mod

/-- `CalcGasLimit` (miner strategy, not consensus).  `params.MinGasLimit`,
`params.TargetGasLimit` and the parent header fields are parameters; the
divisor `params.GasLimitBoundDivisor` is 1024.  All arithmetic is Go
`uint64`. -/
def CalcGasLimit (minGasLimit targetGasLimit parentGasLimit parentGasUsed : Nat) : Nat :=
  let contrib := u64add parentGasUsed (parentGasUsed / 2) / 1024
  let decay := u64sub (parentGasLimit / 1024) 1
  let limit := u64add (u64sub parentGasLimit decay) contrib
  let limit1 := if limit < minGasLimit then minGasLimit else limit
  if limit1 < targetGasLimit then
    let limit2 := u64add parentGasLimit decay
    if limit2 > targetGasLimit then targetGasLimit else limit2
  else limit1

/-- The gas-limit recurrence exactly as the spec words it, in exact integer
arithmetic: `D = parent.gas_limit / 1024 − 1`,
`C = (parent.gas_used · 3 / 2) / 1024`, `L = parent.gas_limit − D + C`
clamped below by `MinGasLimit`; if `L < TargetGasLimit` then
`L = min(parent.gas_limit + D, TargetGasLimit)`. -/
def calcGasLimitFormula (minGasLimit targetGasLimit parentGasLimit parentGasUsed : Nat) : Nat :=
  let d := parentGasLimit / 1024 - 1
  let c := parentGasUsed * 3 / 2 / 1024
  let l := parentGasLimit - d + c
  let l1 := if l < minGasLimit then minGasLimit else l
  if l1 < targetGasLimit then min (parentGasLimit + d) targetGasLimit else l1

/-- The text of a Go error, as opaque bytes. -/
abbrev ErrMsg := List Nat

/-- The outcome of `validateMatchedOrder` for one matching transaction: the
returned order pointer (nil or not), the returned opposing price level, and
the returned error.  The method's internals (order book, state, payload
verification) are collaborators outside the validator, so each transaction
carries its outcome as an oracle. -/
structure TxMatchOutcome where
  order : Option Value
  ol : Option Value
  err : Option ErrMsg
deriving DecidableEq, Repr

/-- A transaction as seen by `ValidateBody`: either not a matching
transaction, or a matching one with its `validateMatchedOrder` outcome. -/
inductive Tx where
  | plain
  | matching (m : TxMatchOutcome)
deriving DecidableEq, Repr

/-- One element of the processed-record list handed to the rollback hook:
the encoded order and the encoded opposing price level (nil when no trades
were claimed). -/
abbrev ProcRecord := List Nat × Option (List Nat)

/-- The collaborators consulted by `ValidateBody`, per block. -/
structure ValidatorEnv where
  /-- `bc.HasBlockAndState(block.Hash(), block.NumberU64())`. -/
  knownBlock : Bool
  /-- `bc.HasBlockAndState(block.ParentHash(), block.NumberU64()-1)`. -/
  parentWithState : Bool
  /-- `bc.HasBlock(block.ParentHash(), block.NumberU64()-1)`. -/
  parentKnown : Bool
  /-- `engine.VerifyUncles` result. -/
  verifyUnclesErr : Option ErrMsg
  /-- `CalcUncleHash(block.Uncles()) == header.UncleHash`. -/
  uncleRootOK : Bool
  /-- `DeriveSha(block.Transactions()) == header.TxHash`. -/
  txRootOK : Bool
  /-- `engine.GetTomoXService() != nil`. -/
  tomoxFound : Bool
  /-- `bc.State()` error. -/
  stateErr : Option ErrMsg
  /-- The block's transactions with their oracle outcomes. -/
  txs : List Tx
  /-- `tomoXService.Rollback` result on a given processed-record list. -/
  rollbackErr : List ProcRecord → Option ErrMsg

/-- Errors returned by `ValidateBody`. -/
inductive VBErr where
  | knownBlock
  | unknownAncestor
  | prunedAncestor
  /-- An `engine.VerifyUncles` error, returned as-is. -/
  | uncleVerify (m : ErrMsg)
  | uncleRootMismatch
  | txRootMismatch
  /-- `tomox.ErrTomoXServiceNotFound`. -/
  | tomoXServiceNotFound
  /-- A `bc.State()` error, returned as-is. -/
  | stateFailed (m : ErrMsg)
  /-- The error left in the loop's `err` variable, returned as-is after a
  successful rollback. -/
  | matchFailed (m : ErrMsg)
  /-- "validateMatchedOrder failed. Failed to rollback. %s" — the wrap
  carries the rollback error's text only. -/
  | rollbackFailed (rollbackMsg : ErrMsg)
deriving DecidableEq, Repr

/-- The matched-order loop of `ValidateBody` with Go's shared `err`
variable.  When `validateMatchedOrder` returns a non-nil order, the
assignment `encodedOrderItem, err = tomox.EncodeBytesItem(order)` reassigns
the loop's `err`; encoding is total in the model, so the error returned by
`validateMatchedOrder` is overwritten with nil, the record is appended, and
the loop continues.  Only when the returned order is nil does a non-nil
error survive to the `break`. -/
def matchLoop : List Tx → List ProcRecord → Option ErrMsg × List ProcRecord
  | [], processedData => (none, processedData)
  | .plain :: rest, processedData => matchLoop rest processedData
  | .matching m :: rest, processedData =>
    match m.order with
    | none =>
      match m.err with
      | some e => (some e, processedData)
      | none => matchLoop rest processedData
    | some o =>
      let encodedOrderItem := EncodeBytesItem o
      let encodedOrderList := m.ol.map EncodeBytesItem
      matchLoop rest (processedData ++ [(encodedOrderItem, encodedOrderList)])

/-- `BlockValidator.ValidateBody`: ancestry, uncle and transaction-root
checks, then the matched-order loop; a surviving loop error triggers the
rollback hook on the processed-record list, a rollback failure superseding
it with a wrap that carries the rollback error's text. -/
def ValidateBody (env : ValidatorEnv) : Option VBErr :=
  if env.knownBlock then some .knownBlock
  else if !env.parentWithState then
    if !env.parentKnown then some .unknownAncestor else some .prunedAncestor
  else
    match env.verifyUnclesErr with
    | some m => some (.uncleVerify m)
    | none =>
      if !env.uncleRootOK then some .uncleRootMismatch
      else if !env.txRootOK then some .txRootMismatch
      else if !env.tomoxFound then some .tomoXServiceNotFound
      else
        match env.stateErr with
        | some m => some (.stateFailed m)
        | none =>
          match matchLoop env.txs [] with
          | (none, _) => none
          | (some e, processedData) =>
            match env.rollbackErr processedData with
            | some rollbackMsg => some (.rollbackFailed rollbackMsg)
            | none => some (.matchFailed e)

/-- A concrete `BatchDatabase` state (empty-key sentinel `[]`), for
evaluating the model on explicit inputs. -/
def mkDb (store : Store) (hot : LruCache) (reg : Registry) (recent : List Hash)
    (cap : Nat) : BatchDatabase :=
  ⟨store, [], hot, reg, recent, cap⟩

/-- A registry holding exactly one overlay. -/
def regOne (h : Hash) (c : LruCache) : Registry :=
  fun h' => if h' = h then some c else none

/-- A store holding exactly one key. -/
def storeOne (k : Key) (v : List Nat) : Store :=
  fun k' => if k' = k then some v else none

/-- The empty store. -/
def storeNone : Store := fun _ => none

/-- Folding successive `InitDryRunMode` calls (with no parent) over a list
of block hashes. -/
def initFold (db : BatchDatabase) (hs : List Hash) : BatchDatabase :=
  hs.foldl (fun d h => (d.InitDryRunMode h 0).2) db

/-- The ordering asserted by the promotion claim: the hot cache is purged
only after the batch has been written, i.e. every purge event comes after
every batch-write event in the trace. -/
def purgedOnlyAfterWrite (evs : List DbEvent) : Prop :=
  ∀ i j : Fin evs.length, evs.get i = .cachePurge → evs.get j = .batchWrite → j < i

/-- The event `SaveDryRunResult` emits for one cache key, by the overlay's
value at it: a direct store delete for a Tombstone, a batch put of the
encoded value for a live record (junk `batchWrite` in the unreachable
failure shapes). -/
def saveEvFor (cache : LruCache) (ck : CacheKey) : DbEvent :=
  match hexDecode ck, cache.lookup ck with
  | some key, some GoVal.null => .storeDelete key
  | some key, some (GoVal.ptr v) => .batchPut key (EncodeBytesItem v)
  | some key, some (GoVal.plain v) => .batchPut key (EncodeBytesItem v)
  | _, _ => .batchWrite

/-- The batch entry `SaveDryRunResult` stages for one cache key. -/
def savePutFor (cache : LruCache) (ck : CacheKey) : Option (Key × List Nat) :=
  match hexDecode ck, cache.lookup ck with
  | some key, some (GoVal.ptr v) => some (key, EncodeBytesItem v)
  | some key, some (GoVal.plain v) => some (key, EncodeBytesItem v)
  | _, _ => none

/-- The direct delete `SaveDryRunResult` performs for one cache key. -/
def saveDelFor (cache : LruCache) (ck : CacheKey) : Option Key :=
  match hexDecode ck, cache.lookup ck with
  | some key, some GoVal.null => some key
  | _, _ => none

/-- Applying a list of direct deletes to the store, in order. -/
def applyDels (ks : List Key) (s : Store) : Store := ks.foldl Store.del s

/-- Applying a list of batch puts to the store, in order. -/
def applyPuts (batch : List (Key × List Nat)) (s : Store) : Store :=
  batch.foldl (fun s kv => s.put kv.1 kv.2) s

/-! ## Basic lemmas: codec, hex, association lists, LRU operations -/

/-- Spec round-trip property 6: decoding an encoded record at its own
variant succeeds and returns the record. -/
theorem decode_encode (v : Value) : DecodeBytesItem (EncodeBytesItem v) v.variant = some v := by
  cases v with
  | mk var payload => simp [EncodeBytesItem, DecodeBytesItem]

/-- Hex round-trip: decoding an encoded key succeeds and returns the key. -/
theorem hexDecode_hexEncode (k : Key) : hexDecode (hexEncode k) = some k := by
  induction k with
  | nil => rfl
  | cons b rest ih =>
    show hexDecode (_ :: _ :: hexEncode rest) = _
    rw [hexDecode, ih]
    show some (_ :: rest) = some (b :: rest)
    congr 2
    apply Fin.ext
    show 16 * (b.val / 16) + b.val % 16 = b.val
    omega

/-- Where `hexDecode` succeeds, `hexEncode` reconstructs the cache key, so
`hexDecode` is injective on its domain. -/
theorem hexEncode_hexDecode : ∀ (a : CacheKey) (k : Key), hexDecode a = some k → hexEncode k = a
  | [], k, ha => by
    simp only [hexDecode, Option.some_inj] at ha
    rw [← ha]; rfl
  | [x], k, ha => by
    rw [show hexDecode [x] = none from rfl] at ha
    exact Option.noConfusion ha
  | h :: l :: rest, k, ha => by
    simp only [hexDecode] at ha
    cases hr : hexDecode rest with
    | none => rw [hr] at ha; simp at ha
    | some kr =>
      rw [hr] at ha
      replace ha := Option.some_inj.mp ha
      have hrec : hexEncode kr = rest := hexEncode_hexDecode rest kr hr
      rw [← ha]
      show List.flatMap (_ :: kr) _ = _
      rw [List.flatMap_cons]
      show _ :: _ :: List.flatMap kr _ = _
      rw [show List.flatMap kr _ = rest from hrec]
      have e1 : (16 * h.val + l.val) / 16 = h.val := by have := l.isLt; omega
      have e2 : (16 * h.val + l.val) % 16 = l.val := by have := l.isLt; omega
      simp only [List.cons.injEq]
      exact ⟨Fin.ext e1, Fin.ext e2, trivial⟩

/-- `hexDecode` is injective where it succeeds. -/
theorem hexDecode_inj (a b : CacheKey) (k : Key) (ha : hexDecode a = some k)
    (hb : hexDecode b = some k) : a = b := by
  rw [← hexEncode_hexDecode a k ha, ← hexEncode_hexDecode b k hb]

/-- Filtering away a different key does not change a lookup. -/
theorem lookupList_filter_ne (l : List (CacheKey × GoVal)) (k k' : CacheKey) (h : k' ≠ k) :
    lookupList (l.filter fun e => decide (e.1 ≠ k)) k' = lookupList l k' := by
  induction l with
  | nil => rfl
  | cons e rest ih =>
    by_cases he : e.1 = k
    · rw [List.filter_cons_of_neg (by simp [he])]
      show _ = lookupList (e :: rest) k'
      rw [lookupList, if_neg (by rw [he]; exact fun hh => h hh.symm)]
      exact ih
    · rw [List.filter_cons_of_pos (by simp [he])]
      show lookupList (e :: _) k' = lookupList (e :: rest) k'
      rw [lookupList, lookupList]
      by_cases hk : e.1 = k'
      · rw [if_pos hk, if_pos hk]
      · rw [if_neg hk, if_neg hk]; exact ih

/-- A successful lookup comes from a member. -/
theorem lookupList_mem (l : List (CacheKey × GoVal)) (k : CacheKey) (v : GoVal)
    (h : lookupList l k = some v) : (k, v) ∈ l := by
  induction l with
  | nil => exact Option.noConfusion h
  | cons e rest ih =>
    rw [lookupList] at h
    by_cases he : e.1 = k
    · rw [if_pos he] at h
      obtain ⟨a, b⟩ := e
      cases he
      cases Option.some_inj.mp h
      exact List.mem_cons_self _ _
    · rw [if_neg he] at h
      exact List.mem_cons_of_mem _ (ih h)

/-- A member key makes the lookup succeed. -/
theorem lookupList_isSome_of_mem (l : List (CacheKey × GoVal)) (k : CacheKey) (v : GoVal)
    (h : (k, v) ∈ l) : (lookupList l k).isSome := by
  induction l with
  | nil => cases h
  | cons e rest ih =>
    rw [lookupList]
    by_cases he : e.1 = k
    · rw [if_pos he]; rfl
    · rw [if_neg he]
      cases List.mem_cons.mp h with
      | inl hh => cases hh; exact absurd rfl he
      | inr hh => exact ih hh

/-- The key set of a lookup is the key set of the list. -/
theorem lookupList_isSome_iff (l : List (CacheKey × GoVal)) (k : CacheKey) :
    (lookupList l k).isSome ↔ k ∈ l.map Prod.fst := by
  constructor
  · intro h
    cases hv : lookupList l k with
    | none => rw [hv] at h; exact Bool.noConfusion h
    | some v => exact List.mem_map.mpr ⟨(k, v), lookupList_mem l k v hv, rfl⟩
  · intro h
    obtain ⟨e, he, hk⟩ := List.mem_map.mp h
    cases e
    cases hk
    exact lookupList_isSome_of_mem _ _ _ he

/-- Filtering away one key under distinct keys removes exactly the hit. -/
theorem length_filter_ne_of_lookup (l : List (CacheKey × GoVal)) (k : CacheKey) (v : GoVal)
    (h : lookupList l k = some v) (hnd : (l.map Prod.fst).Nodup) :
    (l.filter fun e => decide (e.1 ≠ k)).length + 1 = l.length := by
  induction l with
  | nil => exact Option.noConfusion h
  | cons e rest ih =>
    rw [List.map_cons, List.nodup_cons] at hnd
    rw [lookupList] at h
    by_cases he : e.1 = k
    · rw [List.filter_cons_of_neg (by simp [he])]
      have : rest.filter (fun e => decide (e.1 ≠ k)) = rest := by
        apply List.filter_eq_self.mpr
        intro a ha
        have : a.1 ≠ k := by
          intro hk
          exact hnd.1 (he ▸ hk ▸ List.mem_map.mpr ⟨a, ha, rfl⟩)
        simp [this]
      rw [this, List.length_cons]
    · rw [if_neg he] at h
      rw [List.filter_cons_of_pos (by simp [he]), List.length_cons, List.length_cons]
      rw [ih h hnd.2]

namespace LruCache

/-- The value returned by `Get` is the pure lookup. -/
theorem get_fst (c : LruCache) (k : CacheKey) : (c.get k).1 = c.lookup k := by
  unfold get
  cases h : c.lookup k <;> simp [h]

/-- On a miss, `Get` leaves the cache unchanged. -/
theorem get_miss (c : LruCache) (k : CacheKey) (h : c.lookup k = none) : c.get k = (none, c) := by
  unfold get
  rw [h]

/-- `Get` only reorders entries: every lookup is preserved. -/
theorem get_snd_lookup (c : LruCache) (k k' : CacheKey) :
    ((c.get k).2).lookup k' = c.lookup k' := by
  unfold get
  cases h : c.lookup k with
  | none => rfl
  | some v =>
    show lookupList ((k, v) :: _) k' = _
    rw [lookupList]
    by_cases hk : k = k'
    · cases hk
      rw [if_pos rfl]
      exact h.symm
    · rw [if_neg hk]
      exact lookupList_filter_ne _ _ _ fun hh => hk hh.symm

/-- `Get` preserves the capacity. -/
theorem get_snd_cap (c : LruCache) (k : CacheKey) : ((c.get k).2).cap = c.cap := by
  unfold get
  cases h : c.lookup k <;> rfl

/-- `Add` preserves the capacity. -/
theorem add_cap (c : LruCache) (k : CacheKey) (v : GoVal) : (c.add k v).cap = c.cap := rfl

/-- `Add` makes the added key's lookup hit (the fresh entry survives any
eviction because it is most recent), provided the capacity is positive. -/
theorem add_lookup_self (c : LruCache) (k : CacheKey) (v : GoVal) (h : 1 ≤ c.cap) :
    (c.add k v).lookup k = some v := by
  unfold add lookup
  obtain ⟨n, hn⟩ : ∃ n, c.cap = n + 1 := ⟨c.cap - 1, by omega⟩
  rw [hn, List.take_succ_cons]
  rw [lookupList, if_pos rfl]

/-- Below capacity, `Add` preserves every other lookup. -/
theorem add_lookup_ne (c : LruCache) (k : CacheKey) (v : GoVal) (k' : CacheKey)
    (hne : k' ≠ k) (hlen : c.entries.length < c.cap) :
    (c.add k v).lookup k' = c.lookup k' := by
  unfold add lookup
  have hl : ((k, v) :: c.entries.filter fun e => decide (e.1 ≠ k)).length ≤ c.cap := by
    have := List.length_filter_le (fun e => decide (e.1 ≠ k)) c.entries
    rw [List.length_cons]
    omega
  rw [List.take_of_length_le hl]
  show lookupList ((k, v) :: _) k' = _
  rw [lookupList, if_neg fun hh => hne hh.symm]
  exact lookupList_filter_ne _ _ _ hne

/-- `Add` grows the entry list by at most one. -/
theorem add_len_le (c : LruCache) (k : CacheKey) (v : GoVal) :
    (c.add k v).entries.length ≤ c.entries.length + 1 := by
  have h2 := List.length_filter_le (fun e => decide (e.1 ≠ k)) c.entries
  show (List.take c.cap ((k, v) :: c.entries.filter fun e => decide (e.1 ≠ k))).length ≤ _
  rw [List.length_take, List.length_cons]
  omega

/-- With positive capacity the added entry is retained, so the cache is
non-empty. -/
theorem add_len_pos (c : LruCache) (k : CacheKey) (v : GoVal) (h : 1 ≤ c.cap) :
    0 < (c.add k v).entries.length := by
  unfold add
  obtain ⟨n, hn⟩ : ∃ n, c.cap = n + 1 := ⟨c.cap - 1, by omega⟩
  rw [hn, List.take_succ_cons]
  simp

end LruCache

/-- The filter used by the LRU operations preserves distinctness of keys. -/
theorem nodup_keys_filter (l : List (CacheKey × GoVal)) (k : CacheKey)
    (h : (l.map Prod.fst).Nodup) :
    ((l.filter fun e => decide (e.1 ≠ k)).map Prod.fst).Nodup :=
  List.Nodup.sublist ((List.filter_sublist l).map Prod.fst) h

/-- The filtered list no longer contains the filtered key. -/
theorem not_mem_filter_keys (l : List (CacheKey × GoVal)) (k : CacheKey) :
    k ∉ (l.filter fun e => decide (e.1 ≠ k)).map Prod.fst := by
  intro h
  obtain ⟨e, he, hk⟩ := List.mem_map.mp h
  have := List.of_mem_filter he
  rw [decide_eq_true_eq] at this
  exact this hk

namespace LruCache

/-- `Get` preserves distinctness of keys. -/
theorem get_snd_nodup (c : LruCache) (k : CacheKey)
    (h : (c.entries.map Prod.fst).Nodup) :
    (((c.get k).2).entries.map Prod.fst).Nodup := by
  unfold get
  cases hv : c.lookup k with
  | none => exact h
  | some v =>
    show ((((k, v) :: c.entries.filter fun e => decide (e.1 ≠ k))).map Prod.fst).Nodup
    rw [List.map_cons, List.nodup_cons]
    exact ⟨not_mem_filter_keys _ _, nodup_keys_filter _ _ h⟩

/-- Under distinct keys `Get` preserves the entry count. -/
theorem get_snd_len (c : LruCache) (k : CacheKey)
    (h : (c.entries.map Prod.fst).Nodup) :
    ((c.get k).2).entries.length = c.entries.length := by
  unfold get
  cases hv : c.lookup k with
  | none => rfl
  | some v =>
    show (((k, v) :: c.entries.filter fun e => decide (e.1 ≠ k))).length = _
    rw [List.length_cons]
    exact length_filter_ne_of_lookup c.entries k v hv h

/-- `Add` preserves distinctness of keys. -/
theorem add_nodup (c : LruCache) (k : CacheKey) (v : GoVal)
    (h : (c.entries.map Prod.fst).Nodup) :
    ((c.add k v).entries.map Prod.fst).Nodup := by
  have hfull : ((((k, v) :: c.entries.filter fun e => decide (e.1 ≠ k))).map Prod.fst).Nodup := by
    rw [List.map_cons, List.nodup_cons]
    exact ⟨not_mem_filter_keys _ _, nodup_keys_filter _ _ h⟩
  exact List.Nodup.sublist ((List.take_sublist _ _).map Prod.fst) hfull

end LruCache

namespace BatchDatabase

/-- In staged mode the fallback result is read and decoded from the
persistent store alone: the hot cache contributes nothing. -/
theorem getFallback_fst_dryrun (db : BatchDatabase) (key : Key) (var : Variant)
    (cacheKey : CacheKey) :
    (db.getFallback key var true cacheKey).1 =
      (match db.db.get key with
       | none => .error .notFound
       | some b =>
         match DecodeBytesItem b var with
         | none => .error .decodeFailed
         | some v => .ok (some (.ptr v))) := by
  unfold getFallback
  cases h : (db.cacheItems.get cacheKey).1 with
  | none =>
    cases hs : db.db.get key with
    | none => simp [h, hs]
    | some b => cases hd : DecodeBytesItem b var <;> simp [h, hs, hd]
  | some cached =>
    cases hs : db.db.get key with
    | none => simp [h, hs]
    | some b => cases hd : DecodeBytesItem b var <;> simp [h, hs, hd]

/-- In staged mode the fallback only bumps the recency of the probed hot
cache slot; nothing else in the state changes. -/
theorem getFallback_snd_dryrun (db : BatchDatabase) (key : Key) (var : Variant)
    (cacheKey : CacheKey) :
    (db.getFallback key var true cacheKey).2 =
      { db with cacheItems := (db.cacheItems.get cacheKey).2 } := by
  unfold getFallback
  cases h : (db.cacheItems.get cacheKey).1 with
  | none =>
    cases hs : db.db.get key with
    | none => simp [h, hs]
    | some b => cases hd : DecodeBytesItem b var <;> simp [h, hs, hd]
  | some cached =>
    cases hs : db.db.get key with
    | none => simp [h, hs]
    | some b => cases hd : DecodeBytesItem b var <;> simp [h, hs, hd]

end BatchDatabase

/-- A cache with a successful lookup is non-empty. -/
theorem LruCache.len_pos_of_lookup (c : LruCache) (k : CacheKey) (v : GoVal)
    (h : c.lookup k = some v) : 0 < c.len := by
  have hm := lookupList_mem c.entries k v h
  have hne : c.entries ≠ [] := by
    intro he
    rw [he] at hm
    cases hm
  exact List.length_pos.mpr hne

namespace BatchDatabase

/-- Staged `Get`, overlay hit: the overlay's own entry answers (a nil
Tombstone reads as absent). -/
theorem Get_staged_hit (db : BatchDatabase) (key : Key) (var : Variant) (H : Hash)
    (c : LruCache) (value : GoVal) (hk : db.IsEmptyKey key = false)
    (hreg : db.dryRunCaches H = some c)
    (hhit : c.lookup (getCacheKey key) = some value) :
    (db.Get key var true H).1 = .ok value.toOpt := by
  have hlen : 0 < c.len := LruCache.len_pos_of_lookup c _ _ hhit
  cases hpair : c.get (getCacheKey key) with
  | mk fst snd =>
    have hfst : fst = some value := by
      have h := LruCache.get_fst c (getCacheKey key)
      rw [hpair] at h
      rw [hhit] at h
      exact h
    cases hfst
    simp only [Get, hk, Bool.false_eq_true, if_false, hreg, hlen, if_true, hpair]

/-- Staged `Get`, overlay miss (no entry, or an empty overlay): the result
is read and decoded from the persistent store, independently of the hot
cache. -/
theorem Get_staged_miss (db : BatchDatabase) (key : Key) (var : Variant) (H : Hash)
    (c : LruCache) (hk : db.IsEmptyKey key = false)
    (hreg : db.dryRunCaches H = some c)
    (hmiss : c.lookup (getCacheKey key) = none) :
    (db.Get key var true H).1 =
      (match db.db.get key with
       | none => .error .notFound
       | some b =>
         match DecodeBytesItem b var with
         | none => .error .decodeFailed
         | some v => .ok (some (.ptr v))) := by
  by_cases hlen : 0 < c.len
  · have hpair : c.get (getCacheKey key) = (none, c) := LruCache.get_miss c _ hmiss
    simp only [Get, hk, Bool.false_eq_true, if_false, hreg, hlen, if_true, hpair]
    exact getFallback_fst_dryrun _ _ _ _
  · simp only [Get, hk, Bool.false_eq_true, if_false, hreg, hlen, ite_self]
    exact getFallback_fst_dryrun _ _ _ _

/-- Staged `Get` never changes the hot-cache contents: every hot-cache
lookup is preserved (only recency can move). -/
theorem Get_staged_cacheItems (db : BatchDatabase) (key : Key) (var : Variant) (H : Hash)
    (x : CacheKey) :
    ((db.Get key var true H).2).cacheItems.lookup x = db.cacheItems.lookup x := by
  by_cases hk : db.IsEmptyKey key = true
  · simp only [Get, hk, if_true]
  · have hk' : db.IsEmptyKey key = false := by
      revert hk
      cases db.IsEmptyKey key <;> simp
    cases hreg : db.dryRunCaches H with
    | none =>
      simp only [Get, hk', Bool.false_eq_true, if_false, hreg, ite_self]
      rw [getFallback_snd_dryrun]
      exact LruCache.get_snd_lookup _ _ _
    | some c =>
      by_cases hlen : 0 < c.len
      · cases hpair : c.get (getCacheKey key) with
        | mk fst snd =>
          cases fst with
          | none =>
            simp only [Get, hk', Bool.false_eq_true, if_false, hreg, hlen, if_true, hpair]
            rw [getFallback_snd_dryrun]
            exact LruCache.get_snd_lookup _ _ _
          | some value =>
            simp only [Get, hk', Bool.false_eq_true, if_false, hreg, hlen, if_true, hpair]
      · simp only [Get, hk', Bool.false_eq_true, if_false, hreg, hlen, ite_self]
        rw [getFallback_snd_dryrun]
        exact LruCache.get_snd_lookup _ _ _

/-- Staged `Get` never touches the persistent store state. -/
theorem Get_staged_store (db : BatchDatabase) (key : Key) (var : Variant) (H : Hash) :
    ((db.Get key var true H).2).db = db.db := by
  by_cases hk : db.IsEmptyKey key = true
  · simp only [Get, hk, if_true]
  · have hk' : db.IsEmptyKey key = false := by
      revert hk
      cases db.IsEmptyKey key <;> simp
    cases hreg : db.dryRunCaches H with
    | none =>
      simp only [Get, hk', Bool.false_eq_true, if_false, hreg, ite_self]
      rw [getFallback_snd_dryrun]
    | some c =>
      by_cases hlen : 0 < c.len
      · cases hpair : c.get (getCacheKey key) with
        | mk fst snd =>
          cases fst with
          | none =>
            simp only [Get, hk', Bool.false_eq_true, if_false, hreg, hlen, if_true, hpair]
            rw [getFallback_snd_dryrun]
          | some value =>
            simp only [Get, hk', Bool.false_eq_true, if_false, hreg, hlen, if_true, hpair]
      · simp only [Get, hk', Bool.false_eq_true, if_false, hreg, hlen, ite_self]
        rw [getFallback_snd_dryrun]

end BatchDatabase

namespace BatchDatabase

/-- Staged `Has`, overlay hit: the overlay's own entry answers; a nil
Tombstone reports the key as absent. -/
theorem Has_staged_hit (db : BatchDatabase) (key : Key) (H : Hash)
    (c : LruCache) (value : GoVal) (hk : db.IsEmptyKey key = false)
    (hreg : db.dryRunCaches H = some c)
    (hhit : c.lookup (getCacheKey key) = some value) :
    (db.Has key true H).1 = !value.isNull := by
  have hlen : 0 < c.len := LruCache.len_pos_of_lookup c _ _ hhit
  cases hpair : c.get (getCacheKey key) with
  | mk fst snd =>
    have hfst : fst = some value := by
      have h := LruCache.get_fst c (getCacheKey key)
      rw [hpair] at h
      rw [hhit] at h
      exact h
    cases hfst
    simp only [Has, hk, Bool.false_eq_true, if_false, hreg, hlen, if_true, hpair]

end BatchDatabase

/-- A nil Tombstone hit makes staged `Has` answer false (the sentinel check
already answers false for empty keys). -/
theorem Has_after_tombstone (db2 : BatchDatabase) (key : Key) (H : Hash) (c2 : LruCache)
    (hreg2 : db2.dryRunCaches H = some c2)
    (hhit : c2.lookup (BatchDatabase.getCacheKey key) = some .null) :
    (db2.Has key true H).1 = false := by
  by_cases hek : db2.IsEmptyKey key = true
  · unfold BatchDatabase.Has
    rw [if_pos hek]
  · have hek2 : db2.IsEmptyKey key = false := by
      revert hek
      cases db2.IsEmptyKey key <;> simp
    rw [BatchDatabase.Has_staged_hit db2 key H c2 .null hek2 hreg2 hhit]
    rfl

/-- A nil Tombstone hit makes staged `Get` report absence (nil value, nil
error); the sentinel check reports the same for empty keys. -/
theorem Get_after_tombstone (db2 : BatchDatabase) (key : Key) (var : Variant) (H : Hash)
    (c2 : LruCache) (hreg2 : db2.dryRunCaches H = some c2)
    (hhit : c2.lookup (BatchDatabase.getCacheKey key) = some .null) :
    (db2.Get key var true H).1 = .ok none := by
  by_cases hek : db2.IsEmptyKey key = true
  · unfold BatchDatabase.Get
    rw [if_pos hek]
  · have hek2 : db2.IsEmptyKey key = false := by
      revert hek
      cases db2.IsEmptyKey key <;> simp
    rw [BatchDatabase.Get_staged_hit db2 key var H c2 .null hek2 hreg2 hhit]
    rfl

/-- C2: after a successful staged `delete(K, staged, H)` on a registered
overlay H, `has(K, staged, H)` is false and `get(K, expected_variant,
staged, H)` reports K as absent (nil value, nil error), regardless of the
persistent store's contents: the Tombstone masks any stored value. -/
theorem delete_tombstone_masks (db : BatchDatabase) (key : Key) (var : Variant) (H : Hash)
    (c : LruCache) (_hkey : key ≠ [])
    (hreg : db.dryRunCaches H = some c) (hcap : 1 ≤ c.cap) :
    (db.Delete key true H).1 = .ok () ∧
    (((db.Delete key true H).2).Has key true H).1 = false ∧
    (((db.Delete key true H).2).Get key var true H).1 = .ok none := by
  have hdel : db.Delete key true H =
      (.ok (), { db with dryRunCaches :=
        db.dryRunCaches.update H (c.add (BatchDatabase.getCacheKey key) .null) }) := by
    simp only [BatchDatabase.Delete, hreg]
    rw [if_pos trivial]
  rw [hdel]
  have hreg2 : ({ db with dryRunCaches :=
      db.dryRunCaches.update H (c.add (BatchDatabase.getCacheKey key) .null) } :
        BatchDatabase).dryRunCaches H =
      some (c.add (BatchDatabase.getCacheKey key) .null) := by
    show Registry.update _ H _ H = _
    unfold Registry.update
    rw [if_pos rfl]
  have hhit := LruCache.add_lookup_self c (BatchDatabase.getCacheKey key) .null hcap
  exact ⟨rfl, Has_after_tombstone _ key H _ hreg2 hhit,
    Get_after_tombstone _ key var H _ hreg2 hhit⟩

/-- C1 (amended): for a key that is not nil, not zero-length, and not the
empty-key sentinel, a staged read against a registered overlay with no entry
for the key falls through to the persistent store: the result is the value
decoded from the store (`NotFound` when the store lacks the key), the hot
cache's contents are never consulted (any hot cache gives the same result),
and the fetched value is not added to the hot cache. -/
theorem get_staged_fallthrough (db : BatchDatabase) (key : Key) (var : Variant) (H : Hash)
    (c : LruCache) (hk : db.IsEmptyKey key = false)
    (hreg : db.dryRunCaches H = some c)
    (hent : c.lookup (BatchDatabase.getCacheKey key) = none) :
    ((db.Get key var true H).1 =
      (match db.db.get key with
       | none => Except.error DbErr.notFound
       | some b =>
         match DecodeBytesItem b var with
         | none => Except.error DbErr.decodeFailed
         | some v => Except.ok (some (GoVal.ptr v)))) ∧
    (∀ x, ((db.Get key var true H).2).cacheItems.lookup x = db.cacheItems.lookup x) ∧
    (∀ ci, (({ db with cacheItems := ci } : BatchDatabase).Get key var true H).1 =
      (db.Get key var true H).1) := by
  refine ⟨BatchDatabase.Get_staged_miss db key var H c hk hreg hent,
    fun x => BatchDatabase.Get_staged_cacheItems db key var H x, fun ci => ?_⟩
  rw [BatchDatabase.Get_staged_miss db key var H c hk hreg hent,
    BatchDatabase.Get_staged_miss ({ db with cacheItems := ci }) key var H c hk hreg hent]

/-- C1 counterexample: for the nil key, `Get` does not fall through to the
persistent store.  Here the overlay registered at hash 1 has no entry for
the key and the store holds a decodable value for it, yet the staged read
returns a nil value with nil error — neither the decoded value nor a
NotFound failure. -/
theorem get_staged_emptykey_counterexample :
    ((mkDb (storeOne [] (EncodeBytesItem ⟨.item, [7]⟩)) ⟨1, []⟩ (regOne 1 ⟨1, []⟩) [] 1).dryRunCaches 1
        = some ⟨1, []⟩) ∧
    ((mkDb (storeOne [] (EncodeBytesItem ⟨.item, [7]⟩)) ⟨1, []⟩ (regOne 1 ⟨1, []⟩) [] 1).db.get []
        = some (EncodeBytesItem ⟨.item, [7]⟩)) ∧
    DecodeBytesItem (EncodeBytesItem ⟨.item, [7]⟩) .item = some ⟨.item, [7]⟩ ∧
    (((mkDb (storeOne [] (EncodeBytesItem ⟨.item, [7]⟩)) ⟨1, []⟩ (regOne 1 ⟨1, []⟩) [] 1).Get
        [] .item true 1).1 = .ok none) ∧
    (((mkDb (storeOne [] (EncodeBytesItem ⟨.item, [7]⟩)) ⟨1, []⟩ (regOne 1 ⟨1, []⟩) [] 1).Get
        [] .item true 1).1 ≠ .ok (some (.ptr ⟨.item, [7]⟩))) ∧
    (((mkDb (storeOne [] (EncodeBytesItem ⟨.item, [7]⟩)) ⟨1, []⟩ (regOne 1 ⟨1, []⟩) [] 1).Get
        [] .item true 1).1 ≠ .error .notFound) := by
  decide

/-- C1 witness: the fall-through read on a concrete state returns the
decoded stored value. -/
theorem get_staged_fallthrough_witness :
    ((mkDb (storeOne [1] (EncodeBytesItem ⟨.orderItem, [9]⟩)) ⟨1, []⟩ (regOne 1 ⟨1, []⟩) [] 1).IsEmptyKey
        [1] = false) ∧
    (((mkDb (storeOne [1] (EncodeBytesItem ⟨.orderItem, [9]⟩)) ⟨1, []⟩ (regOne 1 ⟨1, []⟩) [] 1).Get
        [1] .orderItem true 1).1 = .ok (some (.ptr ⟨.orderItem, [9]⟩))) := by
  refine ⟨by decide, ?_⟩
  rw [(get_staged_fallthrough
    (mkDb (storeOne [1] (EncodeBytesItem ⟨.orderItem, [9]⟩)) ⟨1, []⟩ (regOne 1 ⟨1, []⟩) [] 1)
    [1] .orderItem 1 ⟨1, []⟩ (by decide) (by decide) (by decide)).1]
  decide

/-- C2 witness: deleting a concrete key staged on a registered overlay masks
a value present in the persistent store. -/
theorem delete_tombstone_masks_witness :
    ((mkDb (storeOne [0] [0, 7]) ⟨1, []⟩ (regOne 1 ⟨1, []⟩) [] 1).Delete [0] true 1).1 = .ok () ∧
    ((((mkDb (storeOne [0] [0, 7]) ⟨1, []⟩ (regOne 1 ⟨1, []⟩) [] 1).Delete [0] true 1).2).Has
        [0] true 1).1 = false ∧
    ((((mkDb (storeOne [0] [0, 7]) ⟨1, []⟩ (regOne 1 ⟨1, []⟩) [] 1).Delete [0] true 1).2).Get
        [0] .item true 1).1 = .ok none :=
  delete_tombstone_masks (mkDb (storeOne [0] [0, 7]) ⟨1, []⟩ (regOne 1 ⟨1, []⟩) [] 1)
    [0] .item 1 ⟨1, []⟩ (by decide) (by decide) (by decide)

/-- Erasing a hash makes its registry slot empty. -/
theorem Registry.erase_self (r : Registry) (h : Hash) : r.erase h h = none := by
  unfold Registry.erase
  rw [if_pos rfl]

/-- Erasing a hash leaves other slots unchanged. -/
theorem Registry.erase_ne (r : Registry) (h h' : Hash) (hne : h' ≠ h) :
    r.erase h h' = r h' := by
  unfold Registry.erase
  rw [if_neg hne]

/-- Updating a hash fills its registry slot. -/
theorem Registry.update_self (r : Registry) (h : Hash) (c : LruCache) :
    r.update h c h = some c := by
  unfold Registry.update
  rw [if_pos rfl]

/-- Updating a hash leaves other slots unchanged. -/
theorem Registry.update_ne (r : Registry) (h h' : Hash) (c : LruCache) (hne : h' ≠ h) :
    r.update h c h' = r h' := by
  unfold Registry.update
  rw [if_neg hne]

/-- The inheritance loop never fails: decoding a just-encoded record always
succeeds (codec round trip), and that is the only failure the loop can
reach. -/
theorem inheritLoop_fst (keys : List CacheKey) (tgt par : LruCache) :
    (inheritLoop keys tgt par).1 = none := by
  induction keys generalizing tgt par with
  | nil => rfl
  | cons ck rest ih =>
    unfold inheritLoop
    cases hg : par.get ck with
    | mk fst snd =>
      cases fst with
      | none => exact ih _ _
      | some val =>
        cases val with
        | null => exact ih _ _
        | ptr v =>
          simp only [decode_encode]
          exact ih _ _
        | plain v => exact ih _ _

/-- C7 (writes): staged `put` and `delete` against an unknown overlay fail
with the overlay-not-found error and change nothing; against a registered
overlay they succeed, `put` inserting the value and `delete` inserting a nil
Tombstone into the overlay unconditionally, and neither touches the
persistent store or the hot cache. -/
theorem put_delete_staged_semantics :
    (∀ (db : BatchDatabase) (key : Key) (val : GoVal) (H : Hash),
      db.dryRunCaches H = none →
      db.Put key val true H = (.error .dryrunCacheNotFound, db) ∧
      db.Delete key true H = (.error .dryrunCacheNotFound, db)) ∧
    (∀ (db : BatchDatabase) (key : Key) (val : GoVal) (H : Hash) (c : LruCache),
      db.dryRunCaches H = some c →
      (db.Put key val true H).1 = .ok () ∧
      ((db.Put key val true H).2).dryRunCaches H =
        some (c.add (BatchDatabase.getCacheKey key) val) ∧
      (1 ≤ c.cap →
        (c.add (BatchDatabase.getCacheKey key) val).lookup (BatchDatabase.getCacheKey key) =
          some val) ∧
      ((db.Put key val true H).2).db = db.db ∧
      ((db.Put key val true H).2).cacheItems = db.cacheItems ∧
      (db.Delete key true H).1 = .ok () ∧
      ((db.Delete key true H).2).dryRunCaches H =
        some (c.add (BatchDatabase.getCacheKey key) .null) ∧
      (1 ≤ c.cap →
        (c.add (BatchDatabase.getCacheKey key) .null).lookup (BatchDatabase.getCacheKey key) =
          some .null) ∧
      ((db.Delete key true H).2).db = db.db ∧
      ((db.Delete key true H).2).cacheItems = db.cacheItems) := by
  constructor
  · intro db key val H hreg
    constructor
    · simp only [BatchDatabase.Put, hreg]
      rw [if_pos trivial]
    · simp only [BatchDatabase.Delete, hreg]
      rw [if_pos trivial]
  · intro db key val H c hreg
    have hput : db.Put key val true H =
        (.ok (), { db with dryRunCaches :=
          db.dryRunCaches.update H (c.add (BatchDatabase.getCacheKey key) val) }) := by
      simp only [BatchDatabase.Put, hreg]
      rw [if_pos trivial]
    have hdel : db.Delete key true H =
        (.ok (), { db with dryRunCaches :=
          db.dryRunCaches.update H (c.add (BatchDatabase.getCacheKey key) .null) }) := by
      simp only [BatchDatabase.Delete, hreg]
      rw [if_pos trivial]
    rw [hput, hdel]
    refine ⟨rfl, Registry.update_self _ _ _,
      fun hcap => LruCache.add_lookup_self c _ val hcap, rfl, rfl,
      rfl, Registry.update_self _ _ _,
      fun hcap => LruCache.add_lookup_self c _ .null hcap, rfl, rfl⟩

/-- C7 witness: evaluated on a concrete unknown and a concrete registered
overlay. -/
theorem put_delete_staged_semantics_witness :
    ((mkDb storeNone ⟨1, []⟩ (regOne 1 ⟨1, []⟩) [] 1).Put [2] (.ptr ⟨.item, []⟩) true 9 =
      (.error .dryrunCacheNotFound, mkDb storeNone ⟨1, []⟩ (regOne 1 ⟨1, []⟩) [] 1)) ∧
    (((mkDb storeNone ⟨1, []⟩ (regOne 1 ⟨1, []⟩) [] 1).Put [2] (.ptr ⟨.item, []⟩) true 1).1 =
      .ok ()) ∧
    ((mkDb storeNone ⟨1, []⟩ (regOne 1 ⟨1, []⟩) [] 1).Delete [2] true 1).1 = .ok () := by
  refine ⟨(put_delete_staged_semantics.1
      (mkDb storeNone ⟨1, []⟩ (regOne 1 ⟨1, []⟩) [] 1) [2] (.ptr ⟨.item, []⟩) 9 (by decide)).1,
    (put_delete_staged_semantics.2
      (mkDb storeNone ⟨1, []⟩ (regOne 1 ⟨1, []⟩) [] 1) [2] (.ptr ⟨.item, []⟩) 1 ⟨1, []⟩
        (by decide)).1,
    (put_delete_staged_semantics.2
      (mkDb storeNone ⟨1, []⟩ (regOne 1 ⟨1, []⟩) [] 1) [2] (.ptr ⟨.item, []⟩) 1 ⟨1, []⟩
        (by decide)).2.2.2.2.2.1⟩

/-- A just-put key reads back its value. -/
theorem Store.put_self (s : Store) (k : Key) (v : List Nat) : (s.put k v).get k = some v := by
  show (if k = k then some v else s k) = some v
  rw [if_pos rfl]

/-- A just-deleted key reads back as absent. -/
theorem Store.del_self (s : Store) (k : Key) : (s.del k).get k = none := by
  show (if k = k then none else s k) = none
  rw [if_pos rfl]

namespace BatchDatabase

/-- Staged `Put` on a registered overlay: unconditional insert. -/
theorem Put_staged_eq (db : BatchDatabase) (key : Key) (val : GoVal) (H : Hash)
    (c : LruCache) (hreg : db.dryRunCaches H = some c) :
    db.Put key val true H =
      (.ok (), { db with dryRunCaches :=
        db.dryRunCaches.update H (c.add (getCacheKey key) val) }) := by
  simp only [Put, hreg]
  rw [if_pos trivial]

/-- Staged `Delete` on a registered overlay: unconditional Tombstone. -/
theorem Delete_staged_eq (db : BatchDatabase) (key : Key) (H : Hash)
    (c : LruCache) (hreg : db.dryRunCaches H = some c) :
    db.Delete key true H =
      (.ok (), { db with dryRunCaches :=
        db.dryRunCaches.update H (c.add (getCacheKey key) .null) }) := by
  simp only [Delete, hreg]
  rw [if_pos trivial]

/-- Direct `Put` of a pointer record: hot cache is populated and the encoded
value written through to the store. -/
theorem Put_direct_eq (db : BatchDatabase) (key : Key) (w : Value) (H : Hash) :
    db.Put key (.ptr w) false H =
      (.ok (), { db with
        cacheItems := db.cacheItems.add (getCacheKey key) (.ptr w)
        db := db.db.put key (EncodeBytesItem w) }) := by
  simp only [Put, Bool.false_eq_true, if_false, encodeStoredVal]

/-- Direct `Delete`: removal from the hot cache and the store. -/
theorem Delete_direct_eq (db : BatchDatabase) (key : Key) (H : Hash) :
    db.Delete key false H =
      (.ok (), { db with
        cacheItems := db.cacheItems.remove (getCacheKey key)
        db := db.db.del key }) := by
  simp only [Delete, Bool.false_eq_true, if_false]

end BatchDatabase

/-- C9: a nil, zero-length, or sentinel-equal key short-circuits `Has` to
`(false, nil)` and `Get` to `(nil, nil)` in both staged and direct mode,
with no state change, regardless of overlay and store contents; `Put` and
`Delete` perform no such check and treat the empty key like any other key
(staged: insert/Tombstone into the overlay; direct: write-through/delete on
the store). -/
theorem emptyKey_semantics :
    (∀ (db : BatchDatabase) (key : Key) (var : Variant) (m : Bool) (H : Hash),
      db.IsEmptyKey key = true →
      db.Has key m H = (false, db) ∧ db.Get key var m H = (.ok none, db)) ∧
    (∀ (db : BatchDatabase) (key : Key) (val : GoVal) (H : Hash) (c : LruCache),
      db.IsEmptyKey key = true → db.dryRunCaches H = some c →
      (db.Put key val true H).1 = .ok () ∧
      ((db.Put key val true H).2).dryRunCaches H =
        some (c.add (BatchDatabase.getCacheKey key) val) ∧
      (db.Delete key true H).1 = .ok () ∧
      ((db.Delete key true H).2).dryRunCaches H =
        some (c.add (BatchDatabase.getCacheKey key) .null)) ∧
    (∀ (db : BatchDatabase) (key : Key) (w : Value) (H : Hash),
      db.IsEmptyKey key = true →
      (db.Put key (.ptr w) false H).1 = .ok () ∧
      ((db.Put key (.ptr w) false H).2).db.get key = some (EncodeBytesItem w) ∧
      (db.Delete key false H).1 = .ok () ∧
      ((db.Delete key false H).2).db.get key = none) := by
  refine ⟨fun db key var m H hek => ⟨?_, ?_⟩, fun db key val H c hek hreg => ?_, fun db key w H hek => ?_⟩
  · unfold BatchDatabase.Has
    rw [if_pos hek]
  · unfold BatchDatabase.Get
    rw [if_pos hek]
  · rw [BatchDatabase.Put_staged_eq db key val H c hreg,
      BatchDatabase.Delete_staged_eq db key H c hreg]
    exact ⟨rfl, Registry.update_self _ _ _, rfl, Registry.update_self _ _ _⟩
  · rw [BatchDatabase.Put_direct_eq db key w H, BatchDatabase.Delete_direct_eq db key H]
    exact ⟨rfl, Store.put_self _ _ _, rfl, Store.del_self _ _⟩

/-- C9 witness: evaluated at the nil key on a concrete state with a
registered overlay and a store value for the nil key. -/
theorem emptyKey_semantics_witness :
    ((mkDb (storeOne [] [5]) ⟨1, []⟩ (regOne 1 ⟨1, []⟩) [] 1).Has [] true 1 =
      (false, mkDb (storeOne [] [5]) ⟨1, []⟩ (regOne 1 ⟨1, []⟩) [] 1)) ∧
    (((mkDb (storeOne [] [5]) ⟨1, []⟩ (regOne 1 ⟨1, []⟩) [] 1).Put [] (.ptr ⟨.item, [3]⟩) true 1).1 =
      .ok ()) ∧
    (((mkDb (storeOne [] [5]) ⟨1, []⟩ (regOne 1 ⟨1, []⟩) [] 1).Delete [] false 1).2).db.get [] =
      none := by
  refine ⟨(emptyKey_semantics.1 (mkDb (storeOne [] [5]) ⟨1, []⟩ (regOne 1 ⟨1, []⟩) [] 1)
      [] .item true 1 (by decide)).1,
    (emptyKey_semantics.2.1 (mkDb (storeOne [] [5]) ⟨1, []⟩ (regOne 1 ⟨1, []⟩) [] 1)
      [] (.ptr ⟨.item, [3]⟩) 1 ⟨1, []⟩ (by decide) (by decide)).1,
    (emptyKey_semantics.2.2 (mkDb (storeOne [] [5]) ⟨1, []⟩ (regOne 1 ⟨1, []⟩) [] 1)
      [] ⟨.item, [3]⟩ 1 (by decide)).2.2.2⟩

/-- C10: when `InitDryRunMode` fails after its initial drop steps — a
missing or empty parent overlay (decode failures of inherited entries are
unreachable for the round-tripping codec, and `lru.New` fails only for a
non-positive capacity) — any overlay previously registered at the block hash
has already been dropped and no new overlay is registered: afterwards the
registry holds nothing at the hash and `HasDryrunCache` is false. -/
theorem initDryRun_failure_unregisters (db : BatchDatabase) (h p : Hash) (e : DbErr)
    (hfail : (db.InitDryRunMode h p).1 = .error e) :
    ((db.InitDryRunMode h p).2).dryRunCaches h = none ∧
    ((db.InitDryRunMode h p).2).HasDryrunCache h = false := by
  suffices hs : ((db.InitDryRunMode h p).2).dryRunCaches h = none by
    refine ⟨hs, ?_⟩
    unfold BatchDatabase.HasDryrunCache
    rw [hs]
  unfold BatchDatabase.InitDryRunMode at hfail ⊢
  by_cases hb : dryrunCacheLimit ≤ db.recentCaches.length <;>
    simp only [hb, if_true, if_false, Bool.false_eq_true, BatchDatabase.DropDryrunCache] at hfail ⊢ <;>
  · by_cases hc : (db.cacheLimit = 0)
    · simp only [hc, if_true] at hfail ⊢
      exact Registry.erase_self _ _
    · simp only [hc, if_false] at hfail ⊢
      by_cases hp : p ≠ 0
      · rw [if_pos hp] at hfail ⊢
        cases hreg : Registry.erase _ h p with
        | none =>
          simp only [hreg] at hfail ⊢
          exact Registry.erase_self _ _
        | some parentCache =>
          simp only [hreg] at hfail ⊢
          by_cases hlen : 0 < parentCache.len
          · simp only [hlen, if_true] at hfail ⊢
            cases hil : inheritLoop parentCache.keys ⟨db.cacheLimit, []⟩ parentCache with
            | mk fst rest2 =>
              have : fst = none := by
                have := inheritLoop_fst parentCache.keys ⟨db.cacheLimit, []⟩ parentCache
                rw [hil] at this
                exact this
              cases this
              simp only [hil] at hfail
              exact Except.noConfusion hfail
          · simp only [hlen, if_false] at hfail ⊢
            exact Registry.erase_self _ _
      · rw [if_neg hp] at hfail
        exact Except.noConfusion hfail

/-- C10 witness: a concrete init with an unregistered parent fails and
leaves no overlay at the block hash. -/
theorem initDryRun_failure_unregisters_witness :
    (((mkDb storeNone ⟨1, []⟩ (regOne 9 ⟨1, []⟩) [] 1).InitDryRunMode 3 5).1 =
      .error .parentCacheNotFound) ∧
    ((((mkDb storeNone ⟨1, []⟩ (regOne 9 ⟨1, []⟩) [] 1).InitDryRunMode 3 5).2).dryRunCaches 3 =
      none) ∧
    ((((mkDb storeNone ⟨1, []⟩ (regOne 9 ⟨1, []⟩) [] 1).InitDryRunMode 3 5).2).HasDryrunCache 3 =
      false) :=
  ⟨by decide,
    (initDryRun_failure_unregisters (mkDb storeNone ⟨1, []⟩ (regOne 9 ⟨1, []⟩) [] 1) 3 5
      .parentCacheNotFound (by decide)).1,
    (initDryRun_failure_unregisters (mkDb storeNone ⟨1, []⟩ (regOne 9 ⟨1, []⟩) [] 1) 3 5
      .parentCacheNotFound (by decide)).2⟩

/-- C8: for parents with `1024 ≤ gas_limit ≤ 2^63` and `gas_used ≤
gas_limit` (no `uint64` wraparound), `CalcGasLimit` computes exactly the
spec's recurrence: `D = parent.gas_limit / 1024 − 1`,
`C = (parent.gas_used · 3/2) / 1024`, `L = parent.gas_limit − D + C`
clamped below by `MinGasLimit`, and if `L < TargetGasLimit` then
`L = min(parent.gas_limit + D, TargetGasLimit)`. -/
theorem calcGasLimit_matches_formula (minGasLimit targetGasLimit gl gu : Nat)
    (h1 : 1024 ≤ gl) (h2 : gl ≤ 2 ^ 63) (h3 : gu ≤ gl) :
    CalcGasLimit minGasLimit targetGasLimit gl gu =
      calcGasLimitFormula minGasLimit targetGasLimit gl gu := by
  have hq1 : 1 ≤ gl / 1024 := by omega
  have hq2 : gl / 1024 ≤ gl := Nat.div_le_self _ _
  have hgu2 : gu / 2 ≤ gu := Nat.div_le_self _ _
  have hdecay : u64sub (gl / 1024) 1 = gl / 1024 - 1 := by
    unfold u64sub u64Mod
    omega
  have hcontrib : u64add gu (gu / 2) / 1024 = (gu + gu / 2) / 1024 := by
    unfold u64add u64Mod
    have : gu + gu / 2 < 2 ^ 64 := by omega
    rw [Nat.mod_eq_of_lt this]
  have hc32 : (gu + gu / 2) / 1024 = gu * 3 / 2 / 1024 := by
    have : gu + gu / 2 = gu * 3 / 2 := by omega
    rw [this]
  have hcb : (gu + gu / 2) / 1024 ≤ gl := by
    have : (gu + gu / 2) / 1024 ≤ gu + gu / 2 := Nat.div_le_self _ _
    omega
  have hlimit : u64add (u64sub gl (gl / 1024 - 1)) (u64add gu (gu / 2) / 1024) =
      gl - (gl / 1024 - 1) + gu * 3 / 2 / 1024 := by
    rw [hcontrib]
    unfold u64add u64sub u64Mod
    rw [← hc32]
    omega
  have hlimit2 : u64add gl (gl / 1024 - 1) = gl + (gl / 1024 - 1) := by
    unfold u64add u64Mod
    omega
  simp only [CalcGasLimit, calcGasLimitFormula]
  rw [hdecay, hlimit, hlimit2]
  rw [min_def]
  by_cases hmin : gl - (gl / 1024 - 1) + gu * 3 / 2 / 1024 < minGasLimit
  · simp only [hmin, if_true]
    by_cases htgt : minGasLimit < targetGasLimit
    · simp only [htgt, if_true]
      by_cases hcl : gl + (gl / 1024 - 1) ≤ targetGasLimit
      · rw [if_pos hcl, if_neg (by omega)]
      · rw [if_neg hcl, if_pos (by omega)]
    · simp only [htgt, if_false]
  · simp only [hmin, if_false]
    by_cases htgt : gl - (gl / 1024 - 1) + gu * 3 / 2 / 1024 < targetGasLimit
    · simp only [htgt, if_true]
      by_cases hcl : gl + (gl / 1024 - 1) ≤ targetGasLimit
      · rw [if_pos hcl, if_neg (by omega)]
      · rw [if_neg hcl, if_pos (by omega)]
    · simp only [htgt, if_false]

/-- C8 witness: the spec's S6 scenario.  With `GasLimitBoundDivisor = 1024`,
a parent of gas limit 8,000,000 and gas used 6,000,000 gives `D = 7811`,
`C = 8789`, and the unclamped result 8,000,978 (evaluated at the mainnet
defaults `MinGasLimit = 5000`, `TargetGasLimit = 4712388`). -/
theorem calcGasLimit_s6_witness :
    1024 ≤ 8000000 ∧
    8000000 / 1024 - 1 = 7811 ∧
    6000000 * 3 / 2 / 1024 = 8789 ∧
    8000000 - 7811 + 8789 = 8000978 ∧
    CalcGasLimit 5000 4712388 8000000 6000000 = 8000978 := by
  refine ⟨by decide, by decide, by decide, by decide, ?_⟩
  rw [calcGasLimit_matches_formula 5000 4712388 8000000 6000000 (by decide) (by decide)
    (by decide)]
  decide

/-- C5 (code bug): in `ValidateBody`, when `validateMatchedOrder` fails
while returning a non-nil order (as on `MarkOrderAsProcessed`,
`VerifyNewTomoXState`, or trade-logging failures), the assignment
`encodedOrderItem, err = tomox.EncodeBytesItem(order)` overwrites the loop's
`err`, so the error is silently swallowed: no rollback happens and
validation succeeds (first conjunct — the rollback hook here always fails,
so any rollback attempt would have surfaced).  Only a nil-order failure
reaches the rollback path (third conjunct), and when the rollback itself
fails, the wrapping error carries the rollback error's text, not the
original error (second conjunct). -/
theorem validateBody_error_swallowed :
    (ValidateBody {
      knownBlock := false, parentWithState := true, parentKnown := true,
      verifyUnclesErr := none, uncleRootOK := true, txRootOK := true,
      tomoxFound := true, stateErr := none,
      txs := [.matching ⟨some ⟨.orderItem, [1]⟩, none, some [65]⟩],
      rollbackErr := fun _ => some [66] } = none) ∧
    (ValidateBody {
      knownBlock := false, parentWithState := true, parentKnown := true,
      verifyUnclesErr := none, uncleRootOK := true, txRootOK := true,
      tomoxFound := true, stateErr := none,
      txs := [.matching ⟨none, none, some [65]⟩],
      rollbackErr := fun _ => some [66] } = some (.rollbackFailed [66])) ∧
    (ValidateBody {
      knownBlock := false, parentWithState := true, parentKnown := true,
      verifyUnclesErr := none, uncleRootOK := true, txRootOK := true,
      tomoxFound := true, stateErr := none,
      txs := [.matching ⟨none, none, some [65]⟩],
      rollbackErr := fun _ => none } = some (.matchFailed [65])) := by
  refine ⟨by decide, by decide, by decide⟩

/-- A parentless `InitDryRunMode` below the FIFO limit: drop any overlay at
the hash, register a fresh empty overlay, append to the FIFO. -/
theorem InitDryRunMode_noparent_eq (db : BatchDatabase) (h : Hash)
    (hlen : db.recentCaches.length < dryrunCacheLimit)
    (hcap : ¬ db.cacheLimit = 0)
    (hm : h ≠ M1DryrunCacheHash) :
    db.InitDryRunMode h 0 =
      (.ok (), { db with
        dryRunCaches := (db.dryRunCaches.erase h).update h ⟨db.cacheLimit, []⟩
        recentCaches := db.recentCaches ++ [h] }) := by
  simp only [BatchDatabase.InitDryRunMode, BatchDatabase.DropDryrunCache,
    eq_false (show ¬ dryrunCacheLimit ≤ db.recentCaches.length from by omega),
    eq_false hcap, eq_false (show ¬ ((0 : Hash) ≠ 0) from by simp),
    eq_true hm, if_false, if_true]

/-- `initFold` with parentless inits, all below the FIFO limit: the FIFO
grows by the given hashes in order, and each given hash ends registered with
a fresh empty overlay; everything else is untouched. -/
theorem initFold_spec (hs : List Hash) : ∀ (db : BatchDatabase),
    db.recentCaches.length + hs.length ≤ dryrunCacheLimit →
    ¬ db.cacheLimit = 0 →
    (∀ h ∈ hs, h ≠ M1DryrunCacheHash) →
    (initFold db hs).recentCaches = db.recentCaches ++ hs ∧
    (initFold db hs).cacheLimit = db.cacheLimit ∧
    (∀ h', (initFold db hs).dryRunCaches h' =
      if h' ∈ hs then some ⟨db.cacheLimit, []⟩ else db.dryRunCaches h') := by
  induction hs with
  | nil =>
    intro db _ _ _
    refine ⟨by simp [initFold], rfl, fun h' => by simp [initFold]⟩
  | cons h rest ih =>
    intro db hlen hcap hm
    have hlen1 : db.recentCaches.length < dryrunCacheLimit := by
      simp only [List.length_cons] at hlen
      omega
    have hstep := InitDryRunMode_noparent_eq db h hlen1 hcap (hm h (List.mem_cons_self _ _))
    have hfold : initFold db (h :: rest) =
        initFold ({ db with
          dryRunCaches := (db.dryRunCaches.erase h).update h ⟨db.cacheLimit, []⟩
          recentCaches := db.recentCaches ++ [h] }) rest := by
      show initFold ((db.InitDryRunMode h 0).2) rest = _
      rw [hstep]
    obtain ⟨h1, h2, h3⟩ := ih ({ db with
        dryRunCaches := (db.dryRunCaches.erase h).update h ⟨db.cacheLimit, []⟩
        recentCaches := db.recentCaches ++ [h] })
      (by
        show (db.recentCaches ++ [h]).length + rest.length ≤ dryrunCacheLimit
        rw [List.length_append]
        simp only [List.length_cons] at hlen
        simp only [List.length_singleton]
        omega)
      hcap
      (fun h' hh' => hm h' (List.mem_cons_of_mem _ hh'))
    rw [hfold]
    refine ⟨?_, h2, fun h' => ?_⟩
    · rw [h1]
      show (db.recentCaches ++ [h]) ++ rest = db.recentCaches ++ h :: rest
      rw [List.append_assoc]
      rfl
    · rw [h3 h']
      by_cases hr : h' ∈ rest
      · rw [if_pos hr, if_pos (List.mem_cons_of_mem _ hr)]
      · rw [if_neg hr]
        by_cases hh : h' = h
        · cases hh
          show Registry.update _ h _ h = _
          rw [Registry.update_self]
          rw [if_pos (List.mem_cons_self _ _)]
        · show Registry.update _ h _ h' = _
          rw [Registry.update_ne _ _ _ _ hh, Registry.erase_ne _ _ _ hh]
          rw [if_neg (by
            intro hmem
            cases List.mem_cons.mp hmem with
            | inl hl => exact hh hl
            | inr hr' => exact hr hr')]

/-- Whenever the FIFO has reached `dryrunCacheLimit`, `InitDryRunMode` first
drops the overlay of `recent[0]` and advances the FIFO: afterwards
`recent[0]` is unregistered (provided it is not the hash being initialized)
and the FIFO has lost its head (gaining the new hash when it is non-miner
and initialization succeeds). -/
theorem initDryRun_evicts_head (db : BatchDatabase) (h p : Hash)
    (hlen : dryrunCacheLimit ≤ db.recentCaches.length)
    (hne : db.recentCaches.headD 0 ≠ h) :
    ((db.InitDryRunMode h p).2).dryRunCaches (db.recentCaches.headD 0) = none ∧
    (((db.InitDryRunMode h p).2).recentCaches = db.recentCaches.drop 1 ∨
     ((db.InitDryRunMode h p).2).recentCaches = db.recentCaches.drop 1 ++ [h]) := by
  have hhead :
      (Registry.erase (Registry.erase db.dryRunCaches (db.recentCaches.headD 0)) h)
        (db.recentCaches.headD 0) = none := by
    rw [Registry.erase_ne _ _ _ hne, Registry.erase_self]
  unfold BatchDatabase.InitDryRunMode
  simp only [eq_true hlen, if_true, BatchDatabase.DropDryrunCache]
  by_cases hc : db.cacheLimit = 0
  · simp only [hc, if_true]
    exact ⟨hhead, Or.inl trivial⟩
  · simp only [hc, if_false]
    by_cases hp : p ≠ 0
    · rw [if_pos hp]
      cases hreg :
        (Registry.erase (Registry.erase db.dryRunCaches (db.recentCaches.headD 0)) h) p with
      | none =>
        simp only [hreg]
        exact ⟨hhead, Or.inl trivial⟩
      | some parentCache =>
        have hph : p ≠ db.recentCaches.headD 0 := by
          intro hcontra
          rw [hcontra, hhead] at hreg
          exact Option.noConfusion hreg
        simp only [hreg]
        by_cases hlen2 : 0 < parentCache.len
        · simp only [hlen2, if_true]
          cases hil : inheritLoop parentCache.keys ⟨db.cacheLimit, []⟩ parentCache with
          | mk fst rest2 =>
            have hfst : fst = none := by
              have := inheritLoop_fst parentCache.keys ⟨db.cacheLimit, []⟩ parentCache
              rw [hil] at this
              exact this
            cases hfst
            obtain ⟨tgt, par'⟩ := rest2
            simp only [hil]
            by_cases hm : h ≠ M1DryrunCacheHash
            · simp only [eq_true hm, if_true]
              refine ⟨?_, ?_⟩
              · rw [Registry.update_ne _ _ _ _ hne,
                  Registry.update_ne _ _ _ _ (fun hx => hph hx.symm)]
                exact hhead
              · exact Or.inr trivial
            · simp only [eq_false hm, if_false]
              refine ⟨?_, ?_⟩
              · rw [Registry.update_ne _ _ _ _ hne,
                  Registry.update_ne _ _ _ _ (fun hx => hph hx.symm)]
                exact hhead
              · exact Or.inl trivial
        · simp only [hlen2, if_false]
          exact ⟨hhead, Or.inl trivial⟩
    · rw [if_neg hp]
      by_cases hm : h ≠ M1DryrunCacheHash
      · simp only [eq_true hm, if_true]
        refine ⟨?_, ?_⟩
        · rw [Registry.update_ne _ _ _ _ hne]
          exact hhead
        · exact Or.inr trivial
      · simp only [eq_false hm, if_false]
        refine ⟨?_, ?_⟩
        · rw [Registry.update_ne _ _ _ _ hne]
          exact hhead
        · exact Or.inl trivial

set_option maxRecDepth 20000 in
/-- C6 counterexample: 200 successive parentless `InitDryRunMode` calls on
distinct non-miner hashes (from a clean registry, no intervening drops) do
NOT evict the earliest hash: it is still registered afterwards.  Eviction of
the earliest hash happens only on the next (201st) call. -/
theorem fifo_eviction_counterexample :
    ((List.range 200).map (· + 2)).length = dryrunCacheLimit ∧
    ((List.range 200).map (· + 2)).Pairwise (· ≠ ·) ∧
    (∀ h ∈ (List.range 200).map (· + 2), h ≠ M1DryrunCacheHash) ∧
    (initFold (mkDb storeNone ⟨1, []⟩ (fun _ => none) [] 1)
        ((List.range 200).map (· + 2))).dryRunCaches 2 = some ⟨1, []⟩ := by
  refine ⟨by decide, by decide, by decide, ?_⟩
  have hchar := (initFold_spec ((List.range 200).map (· + 2))
      (mkDb storeNone ⟨1, []⟩ (fun _ => none) [] 1)
      (by decide) (by decide) (by decide)).2.2 2
  rw [hchar, if_pos (by decide)]
  rfl

/-- C6 (amended): starting from an empty FIFO, after `dryrunCacheLimit`
(200) successive parentless `init_dryrun` calls with distinct non-miner
hashes and no intervening drops, the earliest hash is still registered; it
is the next (201st) init call that first drops it, so after 201 successive
calls the earliest hash is absent from the registry and `has_dryrun` is
false for it.  In general, each `init_dryrun` first drops `recent[0]` and
advances the FIFO whenever `|recent| ≥ dryrunCacheLimit`. -/
theorem fifo_eviction_amended :
    (∀ (db : BatchDatabase) (h1 : Hash) (rest : List Hash) (hn : Hash),
      db.recentCaches = [] → ¬ db.cacheLimit = 0 →
      (h1 :: rest).length = dryrunCacheLimit →
      (∀ h ∈ h1 :: rest, h ≠ M1DryrunCacheHash) →
      hn ≠ h1 →
      (initFold db (h1 :: rest)).dryRunCaches h1 ≠ none ∧
      (((initFold db (h1 :: rest)).InitDryRunMode hn 0).2).dryRunCaches h1 = none ∧
      (((initFold db (h1 :: rest)).InitDryRunMode hn 0).2).HasDryrunCache h1 = false) ∧
    (∀ (db : BatchDatabase) (h p : Hash),
      dryrunCacheLimit ≤ db.recentCaches.length →
      db.recentCaches.headD 0 ≠ h →
      ((db.InitDryRunMode h p).2).dryRunCaches (db.recentCaches.headD 0) = none ∧
      (((db.InitDryRunMode h p).2).recentCaches = db.recentCaches.drop 1 ∨
       ((db.InitDryRunMode h p).2).recentCaches = db.recentCaches.drop 1 ++ [h])) := by
  refine ⟨?_, fun db h p hl hh => initDryRun_evicts_head db h p hl hh⟩
  intro db h1 rest hn hrec hcap hlen hm hne
  obtain ⟨hr, _, hreg⟩ := initFold_spec (h1 :: rest) db
    (by rw [hrec]; simpa using Nat.le_of_eq hlen) hcap hm
  have hfold_rec : (initFold db (h1 :: rest)).recentCaches = h1 :: rest := by
    rw [hr, hrec]
    rfl
  have hlen200 : dryrunCacheLimit ≤ (initFold db (h1 :: rest)).recentCaches.length := by
    rw [hfold_rec, hlen]
  have hhead : (initFold db (h1 :: rest)).recentCaches.headD 0 ≠ hn := by
    rw [hfold_rec]
    exact fun hx => hne hx.symm
  have hev := initDryRun_evicts_head (initFold db (h1 :: rest)) hn 0 hlen200 hhead
  have hev1 : (((initFold db (h1 :: rest)).InitDryRunMode hn 0).2).dryRunCaches h1 = none := by
    have := hev.1
    rw [hfold_rec] at this
    exact this
  refine ⟨?_, hev1, ?_⟩
  · rw [hreg h1, if_pos (List.mem_cons_self _ _)]
    exact fun hx => Option.noConfusion hx
  · unfold BatchDatabase.HasDryrunCache
    rw [hev1]

set_option maxRecDepth 20000 in
/-- C6 witness: the amended statement evaluated on a concrete clean state,
200 concrete distinct hashes and a 201st init. -/
theorem fifo_eviction_amended_witness :
    ((initFold (mkDb storeNone ⟨1, []⟩ (fun _ => none) [] 1)
        (2 :: (List.range 199).map (· + 3))).dryRunCaches 2 ≠ none) ∧
    ((((initFold (mkDb storeNone ⟨1, []⟩ (fun _ => none) [] 1)
        (2 :: (List.range 199).map (· + 3))).InitDryRunMode 300 0).2).dryRunCaches 2 = none) := by
  have h := fifo_eviction_amended.1 (mkDb storeNone ⟨1, []⟩ (fun _ => none) [] 1)
    2 ((List.range 199).map (· + 3)) 300 rfl (by decide) (by decide) (by decide) (by decide)
  exact ⟨h.1, h.2.1⟩

/-- Filtering away a key with a hit strictly shrinks the list. -/
theorem length_filter_ne_lt (l : List (CacheKey × GoVal)) (k : CacheKey) (v : GoVal)
    (h : lookupList l k = some v) :
    (l.filter fun e => decide (e.1 ≠ k)).length < l.length := by
  induction l with
  | nil => exact Option.noConfusion h
  | cons e rest ih =>
    rw [lookupList] at h
    by_cases he : e.1 = k
    · rw [List.filter_cons_of_neg (by simp [he])]
      have := List.length_filter_le (fun e => decide (e.1 ≠ k)) rest
      rw [List.length_cons]
      omega
    · rw [if_neg he] at h
      rw [List.filter_cons_of_pos (by simp [he]), List.length_cons, List.length_cons]
      exact Nat.succ_lt_succ (ih h)

/-- `Get` never grows the cache. -/
theorem LruCache.get_snd_len_le (c : LruCache) (k : CacheKey) :
    ((c.get k).2).entries.length ≤ c.entries.length := by
  unfold get
  cases hv : c.lookup k with
  | none => exact Nat.le_refl _
  | some v =>
    show (((k, v) :: c.entries.filter fun e => decide (e.1 ≠ k))).length ≤ _
    rw [List.length_cons]
    exact length_filter_ne_lt c.entries k v hv

/-- A non-empty cache has a successful lookup. -/
theorem LruCache.exists_lookup_of_len_pos (c : LruCache) (h : 0 < c.len) :
    ∃ k v, c.lookup k = some v := by
  cases hc : c.entries with
  | nil =>
    unfold len at h
    rw [hc] at h
    cases h
  | cons e rest =>
    refine ⟨e.1, e.2, ?_⟩
    unfold lookup
    rw [hc, lookupList, if_pos rfl]

/-- Membership in `Keys()` is exactly a successful lookup. -/
theorem LruCache.mem_keys_iff (c : LruCache) (k : CacheKey) :
    k ∈ c.keys ↔ (c.lookup k).isSome := by
  unfold keys lookup
  rw [List.mem_reverse]
  exact (lookupList_isSome_iff _ _).symm

/-- The inheritance loop only reorders the parent overlay: every parent
lookup is preserved. -/
theorem inheritLoop_parent_lookup (keys : List CacheKey) (tgt par : LruCache) (k : CacheKey) :
    ((inheritLoop keys tgt par).2.2).lookup k = par.lookup k := by
  induction keys generalizing tgt par with
  | nil => rfl
  | cons ck rest ih =>
    unfold inheritLoop
    cases hg : par.get ck with
    | mk fst snd =>
      have hsnd : snd.lookup k = par.lookup k := by
        have := LruCache.get_snd_lookup par ck k
        rw [hg] at this
        exact this
      cases fst with
      | none => exact (ih _ _).trans hsnd
      | some val =>
        cases val with
        | null => exact (ih _ _).trans hsnd
        | ptr v =>
          simp only [decode_encode]
          exact (ih _ _).trans hsnd
        | plain v => exact (ih _ _).trans hsnd

/-- The inheritance loop never grows the parent overlay. -/
theorem inheritLoop_parent_len_le (keys : List CacheKey) (tgt par : LruCache) :
    ((inheritLoop keys tgt par).2.2).entries.length ≤ par.entries.length := by
  induction keys generalizing tgt par with
  | nil => exact Nat.le_refl _
  | cons ck rest ih =>
    unfold inheritLoop
    cases hg : par.get ck with
    | mk fst snd =>
      have hsnd : snd.entries.length ≤ par.entries.length := by
        have := LruCache.get_snd_len_le par ck
        rw [hg] at this
        exact this
      cases fst with
      | none => exact Nat.le_trans (ih _ _) hsnd
      | some val =>
        cases val with
        | null => exact Nat.le_trans (ih _ _) hsnd
        | ptr v =>
          simp only [decode_encode]
          exact Nat.le_trans (ih _ _) hsnd
        | plain v => exact Nat.le_trans (ih _ _) hsnd

/-- Unfolding the inheritance loop on a parent hit: the (round-trip-cloned)
value is added to the target and the loop continues on the recency-bumped
parent. -/
theorem inheritLoop_cons_hit (ck : CacheKey) (rest : List CacheKey) (tgt par : LruCache)
    (val : GoVal) (hv : par.lookup ck = some val) :
    inheritLoop (ck :: rest) tgt par = inheritLoop rest (tgt.add ck val) (par.get ck).2 := by
  have hpair : par.get ck = (some val, (par.get ck).2) := by
    rw [← hv, ← LruCache.get_fst]
  conv_lhs => unfold inheritLoop
  rw [hpair]
  cases val with
  | null => rfl
  | ptr v => simp only [decode_encode]
  | plain v => rfl

/-- Unfolding the inheritance loop on a parent miss: the key is skipped. -/
theorem inheritLoop_cons_miss (ck : CacheKey) (rest : List CacheKey) (tgt par : LruCache)
    (hv : par.lookup ck = none) :
    inheritLoop (ck :: rest) tgt par = inheritLoop rest tgt par := by
  conv_lhs => unfold inheritLoop
  rw [LruCache.get_miss par ck hv]

/-- The target overlay built by the inheritance loop: a key present in the
traversed key list with a successful parent lookup ends with the parent's
value (pointer records arriving through the encode-then-decode round trip);
any other key keeps the target's prior value.  The capacity bound rules out
eviction while filling. -/
theorem inheritLoop_target_lookup (keys : List CacheKey) : ∀ (tgt par : LruCache) (k : CacheKey),
    tgt.entries.length + keys.length ≤ tgt.cap →
    ((inheritLoop keys tgt par).2.1).lookup k =
      (if k ∈ keys ∧ (par.lookup k).isSome then par.lookup k else tgt.lookup k) := by
  induction keys with
  | nil =>
    intro tgt par k _
    simp
    rfl
  | cons ck rest ih =>
    intro tgt par k hfit
    simp only [List.length_cons] at hfit
    cases hv : par.lookup ck with
    | none =>
      rw [inheritLoop_cons_miss ck rest tgt par hv, ih tgt par k (by omega)]
      by_cases hk : k = ck
      · subst hk
        simp [hv]
      · simp [List.mem_cons, hk]
    | some val =>
      rw [inheritLoop_cons_hit ck rest tgt par val hv]
      rw [ih (tgt.add ck val) (par.get ck).2 k
        (by
          rw [LruCache.add_cap]
          have := LruCache.add_len_le tgt ck val
          omega)]
      rw [LruCache.get_snd_lookup par ck k]
      by_cases hk : k = ck
      · subst hk
        rw [LruCache.add_lookup_self tgt k val (by omega), hv]
        simp [List.mem_cons]
      · rw [LruCache.add_lookup_ne tgt ck val k hk (by omega)]
        simp [List.mem_cons, hk]

namespace BatchDatabase

/-- Staged `Has`, overlay miss: fall through to the persistent store. -/
theorem Has_staged_miss (db : BatchDatabase) (key : Key) (H : Hash)
    (c : LruCache) (hk : db.IsEmptyKey key = false)
    (hreg : db.dryRunCaches H = some c)
    (hmiss : c.lookup (getCacheKey key) = none) :
    (db.Has key true H).1 = db.db.hasKey key := by
  by_cases hlen : 0 < c.len
  · have hpair : c.get (getCacheKey key) = (none, c) := LruCache.get_miss c _ hmiss
    simp only [Has, hk, Bool.false_eq_true, if_false, hreg, hlen, if_true, hpair]
  · simp only [Has, hk, Bool.false_eq_true, if_false, hreg, hlen, if_true, if_false]

/-- Staged `Get` results agree between states sharing the sentinel, the
overlay at the read hash, and the persistent store: the rest of the state —
the hot cache in particular — cannot influence a staged read. -/
theorem Get_staged_reg_congr (dbA dbB : BatchDatabase) (key : Key) (var : Variant) (H : Hash)
    (hek : dbA.emptyKey = dbB.emptyKey)
    (hreg : dbA.dryRunCaches H = dbB.dryRunCaches H)
    (hstore : dbA.db = dbB.db) :
    (dbA.Get key var true H).1 = (dbB.Get key var true H).1 := by
  have hik : dbA.IsEmptyKey key = dbB.IsEmptyKey key := by
    unfold IsEmptyKey
    rw [hek]
  by_cases hk : dbB.IsEmptyKey key = true
  · have hkA : dbA.IsEmptyKey key = true := by rw [hik]; exact hk
    unfold Get
    rw [if_pos hk, if_pos hkA]
  · have hkB : dbB.IsEmptyKey key = false := by
      revert hk
      cases dbB.IsEmptyKey key <;> simp
    have hkA : dbA.IsEmptyKey key = false := by rw [hik]; exact hkB
    cases hregB : dbB.dryRunCaches H with
    | none =>
      have hregA : dbA.dryRunCaches H = none := by rw [hreg]; exact hregB
      simp only [Get, hkA, hkB, Bool.false_eq_true, if_false, hregA, hregB, ite_self]
      rw [getFallback_fst_dryrun, getFallback_fst_dryrun, hstore]
    | some c =>
      have hregA : dbA.dryRunCaches H = some c := by rw [hreg]; exact hregB
      cases hlk : c.lookup (getCacheKey key) with
      | some value =>
        rw [Get_staged_hit dbA key var H c value hkA hregA hlk,
          Get_staged_hit dbB key var H c value hkB hregB hlk]
      | none =>
        rw [Get_staged_miss dbA key var H c hkA hregA hlk,
          Get_staged_miss dbB key var H c hkB hregB hlk, hstore]

/-- Staged `Has` results agree between states sharing the sentinel, the
overlay at the read hash, and the persistent store. -/
theorem Has_staged_reg_congr (dbA dbB : BatchDatabase) (key : Key) (H : Hash)
    (hek : dbA.emptyKey = dbB.emptyKey)
    (hreg : dbA.dryRunCaches H = dbB.dryRunCaches H)
    (hstore : dbA.db = dbB.db) :
    (dbA.Has key true H).1 = (dbB.Has key true H).1 := by
  have hik : dbA.IsEmptyKey key = dbB.IsEmptyKey key := by
    unfold IsEmptyKey
    rw [hek]
  by_cases hk : dbB.IsEmptyKey key = true
  · have hkA : dbA.IsEmptyKey key = true := by rw [hik]; exact hk
    unfold Has
    rw [if_pos hk, if_pos hkA]
  · have hkB : dbB.IsEmptyKey key = false := by
      revert hk
      cases dbB.IsEmptyKey key <;> simp
    have hkA : dbA.IsEmptyKey key = false := by rw [hik]; exact hkB
    cases hregB : dbB.dryRunCaches H with
    | none =>
      have hregA : dbA.dryRunCaches H = none := by rw [hreg]; exact hregB
      simp only [Has, hkA, hkB, Bool.false_eq_true, if_false, hregA, hregB, if_true]
      rw [hstore]
    | some c =>
      have hregA : dbA.dryRunCaches H = some c := by rw [hreg]; exact hregB
      cases hlk : c.lookup (getCacheKey key) with
      | some value =>
        rw [Has_staged_hit dbA key H c value hkA hregA hlk,
          Has_staged_hit dbB key H c value hkB hregB hlk]
      | none =>
        rw [Has_staged_miss dbA key H c hkA hregA hlk,
          Has_staged_miss dbB key H c hkB hregB hlk, hstore]

/-- A staged `Put` touches only the written hash's overlay: the sentinel,
the store and every other registry slot are unchanged. -/
theorem Put_staged_preserves (db : BatchDatabase) (key : Key) (val : GoVal) (H H' : Hash)
    (hne : H' ≠ H) :
    ((db.Put key val true H).2).dryRunCaches H' = db.dryRunCaches H' ∧
    ((db.Put key val true H).2).db = db.db ∧
    ((db.Put key val true H).2).emptyKey = db.emptyKey := by
  cases hreg : db.dryRunCaches H with
  | none =>
    have heq : db.Put key val true H = (.error .dryrunCacheNotFound, db) := by
      simp only [Put, hreg]
      rw [if_pos trivial]
    rw [heq]
    exact ⟨rfl, rfl, rfl⟩
  | some c =>
    rw [Put_staged_eq db key val H c hreg]
    exact ⟨Registry.update_ne _ _ _ _ hne, rfl, rfl⟩

/-- A staged `Delete` touches only the written hash's overlay. -/
theorem Delete_staged_preserves (db : BatchDatabase) (key : Key) (H H' : Hash)
    (hne : H' ≠ H) :
    ((db.Delete key true H).2).dryRunCaches H' = db.dryRunCaches H' ∧
    ((db.Delete key true H).2).db = db.db ∧
    ((db.Delete key true H).2).emptyKey = db.emptyKey := by
  cases hreg : db.dryRunCaches H with
  | none =>
    have heq : db.Delete key true H = (.error .dryrunCacheNotFound, db) := by
      simp only [Delete, hreg]
      rw [if_pos trivial]
    rw [heq]
    exact ⟨rfl, rfl, rfl⟩
  | some c =>
    rw [Delete_staged_eq db key H c hreg]
    exact ⟨Registry.update_ne _ _ _ _ hne, rfl, rfl⟩

/-- `InitDryRunMode` with a registered non-empty parent, below the FIFO
limit: the fresh overlay is filled by the inheritance loop and registered,
the (recency-churned) parent is written back, and the hash joins the FIFO. -/
theorem InitDryRunMode_parent_eq (db : BatchDatabase) (h p : Hash) (cp : LruCache)
    (hlen : db.recentCaches.length < dryrunCacheLimit)
    (hcap : ¬ db.cacheLimit = 0)
    (hm : h ≠ M1DryrunCacheHash)
    (hp0 : p ≠ 0) (hph : p ≠ h)
    (hreg : db.dryRunCaches p = some cp)
    (hplen : 0 < cp.len) :
    db.InitDryRunMode h p =
      (.ok (), { db with
        dryRunCaches := ((db.dryRunCaches.erase h).update p
            (inheritLoop cp.keys ⟨db.cacheLimit, []⟩ cp).2.2).update h
            (inheritLoop cp.keys ⟨db.cacheLimit, []⟩ cp).2.1
        recentCaches := db.recentCaches ++ [h] }) := by
  have hreg2 : (db.dryRunCaches.erase h) p = some cp := by
    rw [Registry.erase_ne _ _ _ hph]
    exact hreg
  cases hil : inheritLoop cp.keys ⟨db.cacheLimit, []⟩ cp with
  | mk fst rest2 =>
    have hfst : fst = none := by
      have := inheritLoop_fst cp.keys ⟨db.cacheLimit, []⟩ cp
      rw [hil] at this
      exact this
    cases hfst
    obtain ⟨tgt, par'⟩ := rest2
    simp only [InitDryRunMode, DropDryrunCache,
      eq_false (show ¬ dryrunCacheLimit ≤ db.recentCaches.length from by omega),
      eq_false hcap, eq_true hp0, eq_true hm, if_false, if_true, hreg2, hplen, hil]

end BatchDatabase

/-- The number of `Keys()` equals the number of entries. -/
theorem LruCache.keys_length (c : LruCache) : c.keys.length = c.entries.length := by
  unfold LruCache.keys
  rw [List.length_reverse, List.length_map]

/-- C4: two overlays initialized from a common registered non-empty parent
(below the FIFO limit, with the parent fitting the fresh capacity) both
initialize successfully; every inherited pointer record arrives through the
encode-then-decode round trip of the codec (a decode failure would be the
inherit error and abort — unreachable here by the round-trip property); and
a subsequent staged `Put` or `Delete` on the first overlay never changes
what `Get` or `Has` observe on the second. -/
theorem overlay_isolation (db : BatchDatabase) (P H1 H2 : Hash) (cP : LruCache)
    (hreg : db.dryRunCaches P = some cP) (hplen : 0 < cP.len)
    (hcap : ¬ db.cacheLimit = 0) (hfit : cP.entries.length ≤ db.cacheLimit)
    (hrec : db.recentCaches.length + 2 ≤ dryrunCacheLimit)
    (hP0 : P ≠ 0) (h1P : H1 ≠ P) (h2P : H2 ≠ P) (h12 : H1 ≠ H2)
    (h1M : H1 ≠ M1DryrunCacheHash) (h2M : H2 ≠ M1DryrunCacheHash) :
    (db.InitDryRunMode H1 P).1 = .ok () ∧
    (((db.InitDryRunMode H1 P).2).InitDryRunMode H2 P).1 = .ok () ∧
    (∀ ck v, cP.lookup ck = some (.ptr v) →
      DecodeBytesItem (EncodeBytesItem v) v.variant = some v ∧
      ∃ c2, ((((db.InitDryRunMode H1 P).2).InitDryRunMode H2 P).2).dryRunCaches H2 = some c2 ∧
        c2.lookup ck = some (.ptr v)) ∧
    (∀ db2 : BatchDatabase,
      db2 = (((db.InitDryRunMode H1 P).2).InitDryRunMode H2 P).2 →
      ∀ (key key' : Key) (val : GoVal) (var : Variant),
      (((db2.Put key val true H1).2).Get key' var true H2).1 = (db2.Get key' var true H2).1 ∧
      (((db2.Put key val true H1).2).Has key' true H2).1 = (db2.Has key' true H2).1 ∧
      (((db2.Delete key true H1).2).Get key' var true H2).1 = (db2.Get key' var true H2).1 ∧
      (((db2.Delete key true H1).2).Has key' true H2).1 = (db2.Has key' true H2).1) := by
  have h21 : H2 ≠ H1 := fun hx => h12 hx.symm
  have h1eq := BatchDatabase.InitDryRunMode_parent_eq db H1 P cP (by omega) hcap h1M hP0
    (fun hx => h1P hx.symm) hreg hplen
  have hpar1lk : ∀ k, ((inheritLoop cP.keys ⟨db.cacheLimit, []⟩ cP).2.2).lookup k = cP.lookup k :=
    fun k => inheritLoop_parent_lookup cP.keys _ cP k
  have hpar1len : 0 < ((inheritLoop cP.keys ⟨db.cacheLimit, []⟩ cP).2.2).len := by
    obtain ⟨k0, v0, hk0⟩ := LruCache.exists_lookup_of_len_pos cP hplen
    exact LruCache.len_pos_of_lookup _ k0 v0 ((hpar1lk k0).trans hk0)
  have hS1P : (({ db with dryRunCaches := ((db.dryRunCaches.erase H1).update P (inheritLoop cP.keys ⟨db.cacheLimit, []⟩ cP).2.2).update H1 (inheritLoop cP.keys ⟨db.cacheLimit, []⟩ cP).2.1, recentCaches := db.recentCaches ++ [H1] } : BatchDatabase)).dryRunCaches P = some ((inheritLoop cP.keys ⟨db.cacheLimit, []⟩ cP).2.2) := by
    show Registry.update _ H1 _ P = _
    rw [Registry.update_ne _ _ _ _ (fun hx => h1P hx.symm)]
    exact Registry.update_self _ _ _
  have hS1rec : (({ db with dryRunCaches := ((db.dryRunCaches.erase H1).update P (inheritLoop cP.keys ⟨db.cacheLimit, []⟩ cP).2.2).update H1 (inheritLoop cP.keys ⟨db.cacheLimit, []⟩ cP).2.1, recentCaches := db.recentCaches ++ [H1] } : BatchDatabase)).recentCaches.length < dryrunCacheLimit := by
    show (db.recentCaches ++ [H1]).length < _
    rw [List.length_append]
    simp only [List.length_singleton]
    omega
  have hS1cap : ¬ (({ db with dryRunCaches := ((db.dryRunCaches.erase H1).update P (inheritLoop cP.keys ⟨db.cacheLimit, []⟩ cP).2.2).update H1 (inheritLoop cP.keys ⟨db.cacheLimit, []⟩ cP).2.1, recentCaches := db.recentCaches ++ [H1] } : BatchDatabase)).cacheLimit = 0 := hcap
  have h2eq := BatchDatabase.InitDryRunMode_parent_eq (({ db with dryRunCaches := ((db.dryRunCaches.erase H1).update P (inheritLoop cP.keys ⟨db.cacheLimit, []⟩ cP).2.2).update H1 (inheritLoop cP.keys ⟨db.cacheLimit, []⟩ cP).2.1, recentCaches := db.recentCaches ++ [H1] } : BatchDatabase)) H2 P ((inheritLoop cP.keys ⟨db.cacheLimit, []⟩ cP).2.2)
    hS1rec hS1cap h2M hP0 (fun hx => h2P hx.symm) hS1P hpar1len
  refine ⟨?_, ?_, ?_, ?_⟩
  · rw [h1eq]
  · rw [h1eq]
    show ((({ db with dryRunCaches := ((db.dryRunCaches.erase H1).update P (inheritLoop cP.keys ⟨db.cacheLimit, []⟩ cP).2.2).update H1 (inheritLoop cP.keys ⟨db.cacheLimit, []⟩ cP).2.1, recentCaches := db.recentCaches ++ [H1] } : BatchDatabase)).InitDryRunMode H2 P).1 = .ok ()
    rw [h2eq]
  · intro ck v hckv
    refine ⟨decode_encode v, ?_⟩
    refine ⟨(inheritLoop (inheritLoop cP.keys ⟨db.cacheLimit, []⟩ cP).2.2.keys ⟨({ db with dryRunCaches := ((db.dryRunCaches.erase H1).update P (inheritLoop cP.keys ⟨db.cacheLimit, []⟩ cP).2.2).update H1 (inheritLoop cP.keys ⟨db.cacheLimit, []⟩ cP).2.1, recentCaches := db.recentCaches ++ [H1] } : BatchDatabase).cacheLimit, []⟩ (inheritLoop cP.keys ⟨db.cacheLimit, []⟩ cP).2.2).2.1, ?_, ?_⟩
    · rw [h1eq]
      show (((({ db with dryRunCaches := ((db.dryRunCaches.erase H1).update P (inheritLoop cP.keys ⟨db.cacheLimit, []⟩ cP).2.2).update H1 (inheritLoop cP.keys ⟨db.cacheLimit, []⟩ cP).2.1, recentCaches := db.recentCaches ++ [H1] } : BatchDatabase)).InitDryRunMode H2 P).2).dryRunCaches H2 = _
      rw [h2eq]
      exact Registry.update_self _ _ _
    · have hfit2 : (⟨(({ db with dryRunCaches := ((db.dryRunCaches.erase H1).update P (inheritLoop cP.keys ⟨db.cacheLimit, []⟩ cP).2.2).update H1 (inheritLoop cP.keys ⟨db.cacheLimit, []⟩ cP).2.1, recentCaches := db.recentCaches ++ [H1] } : BatchDatabase)).cacheLimit, []⟩ : LruCache).entries.length +
          ((inheritLoop cP.keys ⟨db.cacheLimit, []⟩ cP).2.2).keys.length ≤ (⟨(({ db with dryRunCaches := ((db.dryRunCaches.erase H1).update P (inheritLoop cP.keys ⟨db.cacheLimit, []⟩ cP).2.2).update H1 (inheritLoop cP.keys ⟨db.cacheLimit, []⟩ cP).2.1, recentCaches := db.recentCaches ++ [H1] } : BatchDatabase)).cacheLimit, []⟩ : LruCache).cap := by
        show 0 + ((inheritLoop cP.keys ⟨db.cacheLimit, []⟩ cP).2.2).keys.length ≤ db.cacheLimit
        rw [LruCache.keys_length]
        have hle := inheritLoop_parent_len_le cP.keys (⟨db.cacheLimit, []⟩ : LruCache) cP
        omega
      rw [inheritLoop_target_lookup ((inheritLoop cP.keys ⟨db.cacheLimit, []⟩ cP).2.2).keys (⟨(({ db with dryRunCaches := ((db.dryRunCaches.erase H1).update P (inheritLoop cP.keys ⟨db.cacheLimit, []⟩ cP).2.2).update H1 (inheritLoop cP.keys ⟨db.cacheLimit, []⟩ cP).2.1, recentCaches := db.recentCaches ++ [H1] } : BatchDatabase)).cacheLimit, []⟩ : LruCache)
        ((inheritLoop cP.keys ⟨db.cacheLimit, []⟩ cP).2.2) ck hfit2]
      have hlk : ((inheritLoop cP.keys ⟨db.cacheLimit, []⟩ cP).2.2).lookup ck = some (.ptr v) := (hpar1lk ck).trans hckv
      rw [if_pos ⟨(LruCache.mem_keys_iff _ _).mpr (by rw [hlk]; rfl), by rw [hlk]; rfl⟩]
      exact hlk
  · intro db2 _ key key' val var
    have hput := BatchDatabase.Put_staged_preserves db2 key val H1 H2 h21
    have hdel := BatchDatabase.Delete_staged_preserves db2 key H1 H2 h21
    exact ⟨BatchDatabase.Get_staged_reg_congr _ db2 key' var H2 hput.2.2 hput.1 hput.2.1,
      BatchDatabase.Has_staged_reg_congr _ db2 key' H2 hput.2.2 hput.1 hput.2.1,
      BatchDatabase.Get_staged_reg_congr _ db2 key' var H2 hdel.2.2 hdel.1 hdel.2.1,
      BatchDatabase.Has_staged_reg_congr _ db2 key' H2 hdel.2.2 hdel.1 hdel.2.1⟩

/-- C4 witness: two concrete overlays (hashes 2 and 3) initialized from a
concrete parent overlay (hash 5) holding one pointer record; the record is
present in the second overlay with its round-tripped value. -/
theorem overlay_isolation_witness :
    (((mkDb storeNone ⟨1, []⟩ (regOne 5 ⟨4, [(hexEncode [0], GoVal.ptr ⟨.item, [7]⟩)]⟩) [] 4)).InitDryRunMode 2 5).1 = .ok () ∧
    (∃ c2, ((((((mkDb storeNone ⟨1, []⟩ (regOne 5 ⟨4, [(hexEncode [0], GoVal.ptr ⟨.item, [7]⟩)]⟩) [] 4)).InitDryRunMode 2 5).2).InitDryRunMode 3 5).2).dryRunCaches 3 = some c2 ∧
      c2.lookup (hexEncode [0]) = some (.ptr ⟨.item, [7]⟩)) := by
  have h := overlay_isolation (mkDb storeNone ⟨1, []⟩ (regOne 5 ⟨4, [(hexEncode [0], GoVal.ptr ⟨.item, [7]⟩)]⟩) [] 4) 5 2 3 ⟨4, [(hexEncode [0], GoVal.ptr ⟨.item, [7]⟩)]⟩
    (by decide) (by decide) (by decide) (by decide) (by decide) (by decide) (by decide)
    (by decide) (by decide) (by decide) (by decide)
  exact ⟨h.1, (h.2.2.1 (hexEncode [0]) ⟨.item, [7]⟩ (by decide)).2⟩

/-- `filterMap` only depends on the function's values on the list. -/
theorem filterMap_congr_mem {α β : Type} (l : List α) (f g : α → Option β)
    (h : ∀ a ∈ l, f a = g a) : l.filterMap f = l.filterMap g := by
  induction l with
  | nil => rfl
  | cons a rest ih =>
    rw [List.filterMap_cons, List.filterMap_cons, h a (List.mem_cons_self _ _),
      ih fun a ha => h a (List.mem_cons_of_mem _ ha)]

/-- `saveEvFor` only looks at the overlay through `lookup`. -/
theorem saveEvFor_congr (c c' : LruCache) (ck : CacheKey)
    (h : c'.lookup ck = c.lookup ck) : saveEvFor c' ck = saveEvFor c ck := by
  unfold saveEvFor
  rw [h]

/-- `savePutFor` only looks at the overlay through `lookup`. -/
theorem savePutFor_congr (c c' : LruCache) (ck : CacheKey)
    (h : c'.lookup ck = c.lookup ck) : savePutFor c' ck = savePutFor c ck := by
  unfold savePutFor
  rw [h]

/-- `saveDelFor` only looks at the overlay through `lookup`. -/
theorem saveDelFor_congr (c c' : LruCache) (ck : CacheKey)
    (h : c'.lookup ck = c.lookup ck) : saveDelFor c' ck = saveDelFor c ck := by
  unfold saveDelFor
  rw [h]

/-- The promotion loop on decodable keys with live lookups: it succeeds, the
overlay's lookups are untouched, and the batch, the event trace and the
directly-deleted store are exactly the per-key translations in key order. -/
theorem saveLoop_spec (keys : List CacheKey) : ∀ (store : Store) (cache : LruCache)
    (batch : List (Key × List Nat)) (evs : List DbEvent),
    (∀ ck ∈ keys, (hexDecode ck).isSome ∧ (cache.lookup ck).isSome) →
    (saveLoop keys store cache batch evs).1 = none ∧
    (∀ x, ((saveLoop keys store cache batch evs).2.2.1).lookup x = cache.lookup x) ∧
    (saveLoop keys store cache batch evs).2.2.2.1 = batch ++ keys.filterMap (savePutFor cache) ∧
    (saveLoop keys store cache batch evs).2.2.2.2 = evs ++ keys.map (saveEvFor cache) ∧
    (saveLoop keys store cache batch evs).2.1 = applyDels (keys.filterMap (saveDelFor cache)) store := by
  induction keys with
  | nil =>
    intro store cache batch evs _
    exact ⟨rfl, fun x => rfl, by simp [saveLoop], by simp [saveLoop], rfl⟩
  | cons ck rest ih =>
    intro store cache batch evs hwf
    obtain ⟨hdec, hlk⟩ := hwf ck (List.mem_cons_self _ _)
    obtain ⟨key, hkey⟩ := Option.isSome_iff_exists.mp hdec
    obtain ⟨val, hval⟩ := Option.isSome_iff_exists.mp hlk
    cases hpc : cache.get ck with
    | mk fst snd =>
    have hfst : fst = some val := by
      have h := LruCache.get_fst cache ck
      rw [hpc] at h
      rw [hval] at h
      exact h
    cases hfst
    have hsnd : ∀ x, snd.lookup x = cache.lookup x := by
      intro x
      have h := LruCache.get_snd_lookup cache ck x
      rw [hpc] at h
      exact h
    have hwf' : ∀ ck' ∈ rest, (hexDecode ck').isSome ∧ (snd.lookup ck').isSome := by
      intro ck' hck'
      obtain ⟨h1, h2⟩ := hwf ck' (List.mem_cons_of_mem _ hck')
      exact ⟨h1, by rw [hsnd]; exact h2⟩
    have hstep : ∀ (store2 : Store) (batch2 : List (Key × List Nat)) (evs2 : List DbEvent),
        (saveLoop rest store2 snd batch2 evs2).1 = none ∧
        (∀ x, ((saveLoop rest store2 snd batch2 evs2).2.2.1).lookup x = cache.lookup x) ∧
        (saveLoop rest store2 snd batch2 evs2).2.2.2.1 =
          batch2 ++ rest.filterMap (savePutFor cache) ∧
        (saveLoop rest store2 snd batch2 evs2).2.2.2.2 =
          evs2 ++ rest.map (saveEvFor cache) ∧
        (saveLoop rest store2 snd batch2 evs2).2.1 =
          applyDels (rest.filterMap (saveDelFor cache)) store2 := by
      intro store2 batch2 evs2
      obtain ⟨i1, i2, i3, i4, i5⟩ := ih store2 snd batch2 evs2 hwf'
      refine ⟨i1, fun x => (i2 x).trans (hsnd x), ?_, ?_, ?_⟩
      · rw [i3, filterMap_congr_mem rest _ _ fun a _ => savePutFor_congr cache snd a (hsnd a)]
      · rw [i4, List.map_congr_left fun a _ => saveEvFor_congr cache snd a (hsnd a)]
      · rw [i5, filterMap_congr_mem rest _ _ fun a _ => saveDelFor_congr cache snd a (hsnd a)]
    have hunf : saveLoop (ck :: rest) store cache batch evs =
        (match val with
         | GoVal.null =>
           saveLoop rest (store.del key) snd batch (evs ++ [.storeDelete key])
         | GoVal.ptr v =>
           saveLoop rest store snd (batch ++ [(key, EncodeBytesItem v)])
             (evs ++ [.batchPut key (EncodeBytesItem v)])
         | GoVal.plain v =>
           saveLoop rest store snd (batch ++ [(key, EncodeBytesItem v)])
             (evs ++ [.batchPut key (EncodeBytesItem v)])) := by
      conv_lhs => unfold saveLoop
      simp only [hkey, hpc]
      cases val <;> rfl
    have hput0 : savePutFor cache ck =
        (match val with
         | GoVal.null => none
         | GoVal.ptr v => some (key, EncodeBytesItem v)
         | GoVal.plain v => some (key, EncodeBytesItem v)) := by
      unfold savePutFor
      simp only [hkey, hval]
      cases val <;> rfl
    have hdel0 : saveDelFor cache ck =
        (match val with
         | GoVal.null => some key
         | GoVal.ptr _ => none
         | GoVal.plain _ => none) := by
      unfold saveDelFor
      simp only [hkey, hval]
      cases val <;> rfl
    have hev0 : saveEvFor cache ck =
        (match val with
         | GoVal.null => DbEvent.storeDelete key
         | GoVal.ptr v => DbEvent.batchPut key (EncodeBytesItem v)
         | GoVal.plain v => DbEvent.batchPut key (EncodeBytesItem v)) := by
      unfold saveEvFor
      simp only [hkey, hval]
      cases val <;> rfl
    cases val with
    | null =>
      rw [hunf]
      obtain ⟨j1, j2, j3, j4, j5⟩ := hstep (store.del key) batch (evs ++ [.storeDelete key])
      refine ⟨j1, j2, ?_, ?_, ?_⟩
      · rw [j3, List.filterMap_cons, hput0]
      · rw [j4, List.map_cons, hev0, List.append_assoc]
        rfl
      · rw [j5, List.filterMap_cons, hdel0]
        rfl
    | ptr v =>
      rw [hunf]
      obtain ⟨j1, j2, j3, j4, j5⟩ := hstep store (batch ++ [(key, EncodeBytesItem v)])
        (evs ++ [.batchPut key (EncodeBytesItem v)])
      refine ⟨j1, j2, ?_, ?_, ?_⟩
      · rw [j3, List.filterMap_cons, hput0, List.append_assoc]
        rfl
      · rw [j4, List.map_cons, hev0, List.append_assoc]
        rfl
      · rw [j5, List.filterMap_cons, hdel0]
    | plain v =>
      rw [hunf]
      obtain ⟨j1, j2, j3, j4, j5⟩ := hstep store (batch ++ [(key, EncodeBytesItem v)])
        (evs ++ [.batchPut key (EncodeBytesItem v)])
      refine ⟨j1, j2, ?_, ?_, ?_⟩
      · rw [j3, List.filterMap_cons, hput0, List.append_assoc]
        rfl
      · rw [j4, List.map_cons, hev0, List.append_assoc]
        rfl
      · rw [j5, List.filterMap_cons, hdel0]

/-- A staged batch entry records the hex decoding of its cache key. -/
theorem savePutFor_some_dec (c : LruCache) (ck : CacheKey) (p : Key × List Nat)
    (h : savePutFor c ck = some p) : hexDecode ck = some p.1 := by
  unfold savePutFor at h
  split at h
  · cases h
    assumption
  · cases h
    assumption
  · cases h

/-- A staged direct delete records the hex decoding of its cache key. -/
theorem saveDelFor_some_dec (c : LruCache) (ck : CacheKey) (k : Key)
    (h : saveDelFor c ck = some k) : hexDecode ck = some k := by
  unfold saveDelFor at h
  split at h
  · cases h
    assumption
  · cases h

/-- A tombstoned decodable entry stages no batch put. -/
theorem savePutFor_of_null (c : LruCache) (ck : CacheKey)
    (h : c.lookup ck = some GoVal.null) : savePutFor c ck = none := by
  unfold savePutFor
  cases hd : hexDecode ck with
  | none => rfl
  | some key => rw [h]

/-- A live decodable entry stages no direct delete. -/
theorem saveDelFor_of_live (c : LruCache) (ck : CacheKey) (v : Value)
    (h : c.lookup ck = some (GoVal.ptr v) ∨ c.lookup ck = some (GoVal.plain v)) :
    saveDelFor c ck = none := by
  unfold saveDelFor
  cases hd : hexDecode ck with
  | none => rfl
  | some key => cases h with
    | inl h => rw [h]
    | inr h => rw [h]

/-- Deleting a list of keys not containing `k` leaves `k`'s entry alone. -/
theorem applyDels_not_mem (ks : List Key) : ∀ (s : Store) (k : Key), k ∉ ks →
    applyDels ks s k = s k := by
  induction ks with
  | nil => intro s k _; rfl
  | cons a rest ih =>
    intro s k hk
    have hne : k ≠ a := fun h => hk (h ▸ List.mem_cons_self _ _)
    have hrest : k ∉ rest := fun h => hk (List.mem_cons_of_mem _ h)
    show applyDels rest (s.del a) k = s k
    rw [ih _ _ hrest]
    unfold Store.del
    rw [if_neg hne]

/-- Deleting a list of keys containing `k` erases `k`'s entry. -/
theorem applyDels_mem (ks : List Key) : ∀ (s : Store) (k : Key), k ∈ ks →
    applyDels ks s k = none := by
  induction ks with
  | nil => intro s k hk; cases hk
  | cons a rest ih =>
    intro s k hk
    show applyDels rest (s.del a) k = none
    by_cases hr : k ∈ rest
    · exact ih _ _ hr
    · have hka : k = a := by
        cases List.mem_cons.mp hk with
        | inl h => exact h
        | inr h => exact absurd h hr
      rw [applyDels_not_mem rest _ _ hr]
      unfold Store.del
      rw [if_pos hka]

/-- Writing a batch whose keys avoid `k` leaves `k`'s entry alone. -/
theorem applyPuts_not_mem (batch : List (Key × List Nat)) : ∀ (s : Store) (k : Key),
    k ∉ batch.map Prod.fst → applyPuts batch s k = s k := by
  induction batch with
  | nil => intro s k _; rfl
  | cons a rest ih =>
    intro s k hk
    rw [List.map_cons] at hk
    have hne : k ≠ a.1 := fun h => hk (h ▸ List.mem_cons_self _ _)
    have hrest : k ∉ rest.map Prod.fst := fun h => hk (List.mem_cons_of_mem _ h)
    show applyPuts rest (s.put a.1 a.2) k = s k
    rw [ih _ _ hrest]
    unfold Store.put
    rw [if_neg hne]

/-- Writing a batch with distinct keys stores each staged value. -/
theorem applyPuts_mem (batch : List (Key × List Nat)) : ∀ (s : Store) (k : Key) (v : List Nat),
    (batch.map Prod.fst).Nodup → (k, v) ∈ batch → applyPuts batch s k = some v := by
  induction batch with
  | nil => intro s k v _ hk; cases hk
  | cons a rest ih =>
    intro s k v hnd hk
    rw [List.map_cons, List.nodup_cons] at hnd
    show applyPuts rest (s.put a.1 a.2) k = some v
    cases List.mem_cons.mp hk with
    | inl h =>
      have hk1 : k = a.1 := by rw [← h]
      have hv : v = a.2 := by rw [← h]
      have hnotin : k ∉ rest.map Prod.fst := hk1 ▸ hnd.1
      rw [applyPuts_not_mem rest _ _ hnotin]
      unfold Store.put
      rw [if_pos hk1, hv]
    | inr h => exact ih _ _ _ hnd.2 h

/-- A decodable tombstone entry stages exactly a direct delete of its key. -/
theorem saveDelFor_of_null (c : LruCache) (ck : CacheKey) (key : Key)
    (hd : hexDecode ck = some key) (h : c.lookup ck = some GoVal.null) :
    saveDelFor c ck = some key := by
  unfold saveDelFor
  simp only [hd, h]

/-- A decodable live entry stages exactly a batch put of its encoding. -/
theorem savePutFor_of_live (c : LruCache) (ck : CacheKey) (key : Key) (v : Value)
    (hd : hexDecode ck = some key)
    (h : c.lookup ck = some (GoVal.ptr v) ∨ c.lookup ck = some (GoVal.plain v)) :
    savePutFor c ck = some (key, EncodeBytesItem v) := by
  unfold savePutFor
  cases h with
  | inl h => simp only [hd, h]
  | inr h => simp only [hd, h]

/-- The event for a decodable tombstone entry is its direct store delete. -/
theorem saveEvFor_of_null (c : LruCache) (ck : CacheKey) (key : Key)
    (hd : hexDecode ck = some key) (h : c.lookup ck = some GoVal.null) :
    saveEvFor c ck = .storeDelete key := by
  unfold saveEvFor
  simp only [hd, h]

/-- The event for a decodable live entry is the batch put of its encoding. -/
theorem saveEvFor_of_live (c : LruCache) (ck : CacheKey) (key : Key) (v : Value)
    (hd : hexDecode ck = some key)
    (h : c.lookup ck = some (GoVal.ptr v) ∨ c.lookup ck = some (GoVal.plain v)) :
    saveEvFor c ck = .batchPut key (EncodeBytesItem v) := by
  unfold saveEvFor
  cases h with
  | inl h => simp only [hd, h]
  | inr h => simp only [hd, h]

/-- Distinct cache keys stage batch entries with distinct byte keys, because
hex decoding is injective where it succeeds. -/
theorem batch_keys_nodup (c : LruCache) (ks : List CacheKey) (hnd : ks.Nodup) :
    ((ks.filterMap (savePutFor c)).map Prod.fst).Nodup := by
  rw [List.map_filterMap]
  refine List.Nodup.filterMap ?_ hnd
  intro a a' b hb hb'
  rw [Option.mem_def] at hb hb'
  cases hp : savePutFor c a with
  | none => rw [hp] at hb; cases hb
  | some p =>
    rw [hp] at hb
    cases hp' : savePutFor c a' with
    | none => rw [hp'] at hb'; cases hb'
    | some p' =>
      rw [hp'] at hb'
      have hb1 : p.1 = b := Option.some_inj.mp hb
      have hb2 : p'.1 = b := Option.some_inj.mp hb'
      have ha : hexDecode a = some b := hb1 ▸ savePutFor_some_dec c a p hp
      have ha' : hexDecode a' = some b := hb2 ▸ savePutFor_some_dec c a' p' hp'
      exact hexDecode_inj a a' b ha ha'

/-- C3 (amended): `SaveDryRunResult(H)` on a registered non-empty overlay with
decodable keys: it succeeds; each Tombstone entry becomes a direct store
delete and is absent from the final store; each live entry becomes a batch
put of its encoded value and the final store holds that encoding; the
overlay stays registered; the hot cache ends purged.  The trace ends with
the purge IMMEDIATELY FOLLOWED by the batch write: the purge comes before
the write, not after it as the spec claims. -/
theorem saveDryRun_promotion (db : BatchDatabase) (H : Hash) (c : LruCache)
    (hreg : db.dryRunCaches H = some c)
    (hlen : ¬ c.len = 0)
    (hdec : ∀ ck ∈ c.keys, (hexDecode ck).isSome)
    (hnd : (c.entries.map Prod.fst).Nodup) :
    (db.SaveDryRunResult H).1 = .ok () ∧
    (∃ pre, (db.SaveDryRunResult H).2.2 = pre ++ [DbEvent.cachePurge, DbEvent.batchWrite]) ∧
    (((db.SaveDryRunResult H).2.1.dryRunCaches) H).isSome ∧
    ((db.SaveDryRunResult H).2.1.cacheItems).entries = [] ∧
    (∀ ck key, c.lookup ck = some GoVal.null → hexDecode ck = some key →
      DbEvent.storeDelete key ∈ (db.SaveDryRunResult H).2.2 ∧
      ((db.SaveDryRunResult H).2.1.db) key = none) ∧
    (∀ ck key v,
      (c.lookup ck = some (GoVal.ptr v) ∨ c.lookup ck = some (GoVal.plain v)) →
      hexDecode ck = some key →
      DbEvent.batchPut key (EncodeBytesItem v) ∈ (db.SaveDryRunResult H).2.2 ∧
      ((db.SaveDryRunResult H).2.1.db) key = some (EncodeBytesItem v)) := by
  have hwf : ∀ ck ∈ c.keys, (hexDecode ck).isSome ∧ (c.lookup ck).isSome :=
    fun ck hck => ⟨hdec ck hck, (LruCache.mem_keys_iff c ck).mp hck⟩
  obtain ⟨s1, s2, s3, s4, s5⟩ := saveLoop_spec c.keys db.db c [] [] hwf
  cases hsl : saveLoop c.keys db.db c [] [] with
  | mk res q1 =>
  cases q1 with
  | mk store' q2 =>
  cases q2 with
  | mk cache' q3 =>
  cases q3 with
  | mk batch evs =>
  rw [hsl] at s1 s3 s4 s5
  have hres : res = none := s1
  have hbatch : batch = c.keys.filterMap (savePutFor c) := by
    have := s3
    rw [List.nil_append] at this
    exact this
  have hevs : evs = c.keys.map (saveEvFor c) := by
    have := s4
    rw [List.nil_append] at this
    exact this
  have hstore : store' = applyDels (c.keys.filterMap (saveDelFor c)) db.db := s5
  have hmain : db.SaveDryRunResult H =
      (.ok (), { db with
          db := applyPuts batch store',
          cacheItems := db.cacheItems.purge,
          dryRunCaches := db.dryRunCaches.update H cache' },
        evs ++ [DbEvent.cachePurge, DbEvent.batchWrite]) := by
    simp only [BatchDatabase.SaveDryRunResult, hreg]
    rw [if_neg hlen]
    rw [hsl, hres]
    rfl
  have hknd : c.keys.Nodup := by
    unfold LruCache.keys
    exact List.nodup_reverse.mpr hnd
  refine ⟨by rw [hmain], ⟨evs, by rw [hmain]⟩, ?_, by rw [hmain]; rfl, ?_, ?_⟩
  · rw [hmain]
    show ((db.dryRunCaches.update H cache') H).isSome
    rw [Registry.update_self]
    rfl
  · intro ck key hnull hd
    have hmem : ck ∈ c.keys := (LruCache.mem_keys_iff c ck).mpr (by rw [hnull]; rfl)
    constructor
    · rw [hmain]
      show DbEvent.storeDelete key ∈ evs ++ [DbEvent.cachePurge, DbEvent.batchWrite]
      refine List.mem_append_left _ ?_
      rw [hevs]
      exact List.mem_map.mpr ⟨ck, hmem, saveEvFor_of_null c ck key hd hnull⟩
    · rw [hmain]
      show applyPuts batch store' key = none
      have hnotb : key ∉ batch.map Prod.fst := by
        intro hin
        rw [hbatch, List.map_filterMap] at hin
        obtain ⟨ck', _, hck'⟩ := List.mem_filterMap.mp hin
        cases hp : savePutFor c ck' with
        | none =>
          rw [hp] at hck'
          exact Option.noConfusion hck'
        | some p =>
          rw [hp] at hck'
          have hb1 : p.1 = key := Option.some_inj.mp hck'
          have ha' : hexDecode ck' = some key := hb1 ▸ savePutFor_some_dec c ck' p hp
          have : ck' = ck := hexDecode_inj ck' ck key ha' hd
          rw [this, savePutFor_of_null c ck hnull] at hp
          cases hp
      rw [applyPuts_not_mem batch store' key hnotb, hstore]
      refine applyDels_mem _ _ _ ?_
      exact List.mem_filterMap.mpr ⟨ck, hmem, saveDelFor_of_null c ck key hd hnull⟩
  · intro ck key v hlive hd
    have hlk : (c.lookup ck).isSome := by
      cases hlive with
      | inl h => rw [h]; rfl
      | inr h => rw [h]; rfl
    have hmem : ck ∈ c.keys := (LruCache.mem_keys_iff c ck).mpr hlk
    constructor
    · rw [hmain]
      show DbEvent.batchPut key (EncodeBytesItem v) ∈ evs ++ [DbEvent.cachePurge, DbEvent.batchWrite]
      refine List.mem_append_left _ ?_
      rw [hevs]
      exact List.mem_map.mpr ⟨ck, hmem, saveEvFor_of_live c ck key v hd hlive⟩
    · rw [hmain]
      show applyPuts batch store' key = some (EncodeBytesItem v)
      have hnodup : (batch.map Prod.fst).Nodup := by
        rw [hbatch]
        exact batch_keys_nodup c c.keys hknd
      refine applyPuts_mem batch store' key (EncodeBytesItem v) hnodup ?_
      rw [hbatch]
      exact List.mem_filterMap.mpr ⟨ck, hmem, savePutFor_of_live c ck key v hd hlive⟩

/-- C3 counterexample to the claimed ordering: on a one-entry overlay the
trace is batch put, then hot-cache purge, then batch write — the purge
happens BEFORE the batch is written, so "the hot cache is purged only after
the batch has been written" fails on this run. -/
theorem save_purge_order_counterexample :
    ((mkDb storeNone ⟨2, []⟩
        (regOne 1 ⟨2, [(hexEncode [0], GoVal.ptr ⟨Variant.item, [4]⟩)]⟩) [] 2).SaveDryRunResult
          1).2.2 =
      [DbEvent.batchPut [0] [0, 4], DbEvent.cachePurge, DbEvent.batchWrite] ∧
    ¬ purgedOnlyAfterWrite
      (((mkDb storeNone ⟨2, []⟩
          (regOne 1 ⟨2, [(hexEncode [0], GoVal.ptr ⟨Variant.item, [4]⟩)]⟩) [] 2).SaveDryRunResult
            1).2.2) := by
  constructor
  · decide
  · intro hp
    have := hp ⟨1, by decide⟩ ⟨2, by decide⟩ (by decide) (by decide)
    exact absurd this (by decide)

/-- Concrete run of the amended C3 theorem: a one-entry live overlay is
promoted successfully, the hot cache ends empty and the encoded value lands
in the persistent store. -/
theorem saveDryRun_promotion_witness :
    ((mkDb storeNone ⟨2, []⟩
        (regOne 1 ⟨2, [(hexEncode [0], GoVal.ptr ⟨Variant.item, [4]⟩)]⟩) [] 2).SaveDryRunResult
          1).1 = .ok () ∧
    ((mkDb storeNone ⟨2, []⟩
        (regOne 1 ⟨2, [(hexEncode [0], GoVal.ptr ⟨Variant.item, [4]⟩)]⟩) [] 2).SaveDryRunResult
          1).2.1.cacheItems.entries = [] ∧
    ((mkDb storeNone ⟨2, []⟩
        (regOne 1 ⟨2, [(hexEncode [0], GoVal.ptr ⟨Variant.item, [4]⟩)]⟩) [] 2).SaveDryRunResult
          1).2.1.db [0] = some (EncodeBytesItem ⟨Variant.item, [4]⟩) := by
  have h := saveDryRun_promotion
    (mkDb storeNone ⟨2, []⟩
      (regOne 1 ⟨2, [(hexEncode [0], GoVal.ptr ⟨Variant.item, [4]⟩)]⟩) [] 2)
    1 ⟨2, [(hexEncode [0], GoVal.ptr ⟨Variant.item, [4]⟩)]⟩
    (by decide) (by decide) (by decide) (by decide)
  exact ⟨h.1, h.2.2.2.1,
    (h.2.2.2.2.2 (hexEncode [0]) [0] ⟨Variant.item, [4]⟩ (Or.inl (by decide)) (by decide)).2⟩
